import Mathlib

/-!
A shallow embedding of the `influx-line` Rust crate (InfluxDB line-protocol
codec): the escape-aware tokenizer, the per-segment decoders, the typed value
model, constructors, and the formatter, together with theorems settling the
specification claims.

Strings are modelled as `List Char`; fallible code returns `Except LineError`.
All delimiters used by the scanners are ASCII, so the byte-index based
`exclusive_split_at` of the source coincides with splitting the char list at
the char position of the delimiter.
-/

set_option maxRecDepth 10000

deriving instance DecidableEq for Except

namespace InfluxLineSpec

/-- Union of the error types of the crate: the variants of `InfluxLineError`
(src/error.rs) together with the variants of the escape-engine error
`NameParseError` (src/types/string/parser.rs).  The `From` conversions that
collapse engine errors into `InfluxLineError` are not present under src/, so
the engine variants are kept as distinct constructors here; no claim depends
on how they would be collapsed. -/
inductive LineError where
  | failed
  | noValue
  | noMeasurement
  | noFields
  | unexpectedEscapeSymbol
  | unescapedSpecialCharacter
  | noWhitespaceDelimiter
  | noQuoteDelimiter
  | symbolsAfterClosedString
  | nameRestriction
  | integerNotParsed
  | uintegerNotParsed
  | booleanNotParsed
  | timestampNotParsed
  | badValue
  | dateTimeOutOfRange
  | specialCharacterNotEscaped
  | trailingEscapeCharacter
  | strayEscapeCharacter
  deriving DecidableEq

/-! ## Escape engine (src/types/string/parser.rs) -/

/-- Stray-escape policy of the escape engine.  `allow` is the behaviour
implemented by `LinearParser` in src/types/string/parser.rs; the `forbid`
branch is requested by src/types/string/quoted.rs (`StrayEscapes::Forbid`)
but the parameterized engine is missing from src/.
Modelled from the spec: section 4.1, Reject policy
("Reject policy → fail with stray escape character"). -/
inductive StrayEscapes where
  | allow
  | forbid
  deriving DecidableEq

/-- States of `LinearParser`.  The source's third state `Error` is modelled by
the `Except` error itself: `process_char` returns `Err` exactly when it would
enter `Error`, and every caller short-circuits via `try_for_each`. -/
inductive ParserState where
  | seenCharacter
  | seenEscapeCharacter
  deriving DecidableEq

inductive CharacterType where
  | normal
  | special
  | escape
  deriving DecidableEq

structure ParserCfg where
  specialCharacters : List Char
  escapeCharacter : Char
  strayEscapes : StrayEscapes

def characterType (cfg : ParserCfg) (c : Char) : CharacterType :=
  if c = cfg.escapeCharacter then .escape
  else if c ∈ cfg.specialCharacters then .special
  else .normal

/-- One step of `LinearParser::process_char`: returns the new state and the
characters appended to the buffer. -/
def processChar (cfg : ParserCfg) (st : ParserState) (c : Char) :
    Except LineError (ParserState × List Char) :=
  match st, characterType cfg c with
  | .seenCharacter, .normal => .ok (.seenCharacter, [c])
  | .seenCharacter, .special => .error .specialCharacterNotEscaped
  | .seenCharacter, .escape => .ok (.seenEscapeCharacter, [])
  | .seenEscapeCharacter, .normal =>
      match cfg.strayEscapes with
      | .allow => .ok (.seenCharacter, [cfg.escapeCharacter, c])
      | .forbid => .error .strayEscapeCharacter
  | .seenEscapeCharacter, .special => .ok (.seenCharacter, [c])
  | .seenEscapeCharacter, .escape => .ok (.seenCharacter, [cfg.escapeCharacter])

/-- Folding `process_char` over the input (the `try_for_each` loop),
accumulating the buffer. -/
def linearRun (cfg : ParserCfg) : ParserState → List Char →
    Except LineError (ParserState × List Char)
  | st, [] => .ok (st, [])
  | st, c :: rest =>
    match processChar cfg st c with
    | .error e => .error e
    | .ok (st', out) =>
      match linearRun cfg st' rest with
      | .error e => .error e
      | .ok (stFin, buf) => .ok (stFin, out ++ buf)

/-- `LinearParser::extract`. -/
def linearExtract (st : ParserState) (buffer : List Char) :
    Except LineError (List Char) :=
  match st with
  | .seenCharacter => .ok buffer
  | .seenEscapeCharacter => .error .trailingEscapeCharacter

/-- Running the whole engine over an input: process every character, then
extract the decoded buffer. -/
def linearParse (cfg : ParserCfg) (s : List Char) : Except LineError (List Char) :=
  match linearRun cfg .seenCharacter s with
  | .error e => .error e
  | .ok (st, buf) => linearExtract st buf

/-! ## Formatter (src/types/string/formatter.rs) -/

/-- `LinearFormatter::chars`: prefix every special character (and nothing
else) with the escape character. -/
def formatChars (specials : List Char) (escape : Char) (s : List Char) : List Char :=
  s.flatMap fun c => if c ∈ specials then [escape, c] else [c]

/-! ## Name types (src/types/string/key.rs, src/types/string/measurement.rs) -/

def keySpecialCharacters : List Char := [',', '=', ' ']

def measurementSpecialCharacters : List Char := [' ', ',']

def escapeCharacter : Char := '\\'

structure KeyName where
  raw : List Char
  deriving DecidableEq

/-- `KeyName::new`: only the non-emptiness and reserved-prefix checks. -/
def KeyName.new (s : List Char) : Except LineError KeyName :=
  if s = [] ∨ s.head? = some '_' then .error .nameRestriction
  else .ok ⟨s⟩

/-- `KeyName::from_str`: escape-engine decode (`StrayEscapes::Allow`) followed
by `KeyName::new`. -/
def KeyName.fromStr (s : List Char) : Except LineError KeyName :=
  match linearParse ⟨keySpecialCharacters, escapeCharacter, .allow⟩ s with
  | .error e => .error e
  | .ok decoded => KeyName.new decoded

/-- `Display for KeyName`. -/
def KeyName.display (k : KeyName) : List Char :=
  formatChars keySpecialCharacters escapeCharacter k.raw

structure MeasurementName where
  raw : List Char
  deriving DecidableEq

/-- `TryFrom<String> for MeasurementName` (src/types/string/measurement.rs). -/
def MeasurementName.tryFrom (s : List Char) : Except LineError MeasurementName :=
  if s = [] ∨ s.head? = some '_' then .error .nameRestriction
  else .ok ⟨s⟩

/-- `FromStr for MeasurementName`: engine decode with the measurement special
set, then the naming restriction.  The parser constructed in measurement.rs
has no policy parameter; its behaviour is the `allow` branch of the engine. -/
def MeasurementName.fromStr (s : List Char) : Except LineError MeasurementName :=
  match linearParse ⟨measurementSpecialCharacters, escapeCharacter, .allow⟩ s with
  | .error e => .error e
  | .ok decoded => MeasurementName.tryFrom decoded

/-- `Display for MeasurementName`. -/
def MeasurementName.display (m : MeasurementName) : List Char :=
  formatChars measurementSpecialCharacters escapeCharacter m.raw

/-! ## Quoted strings (src/types/string/quoted.rs) -/

def quotedSpecialCharacters : List Char := ['"', '\\']

/-- UTF-8 byte length of a character (the source compares `s.len()`, a byte
length, against 2 and passes `s.len() - 2` to `take`, a char count). -/
def charUtf8Len (c : Char) : Nat :=
  if c.val < 0x80 then 1
  else if c.val < 0x800 then 2
  else if c.val < 0x10000 then 3
  else 4

def byteLen (s : List Char) : Nat :=
  (s.map charUtf8Len).sum

/-- `FromStr for QuotedString`: boundary double quotes, then the escape
engine with `StrayEscapes::Forbid` over `chars().skip(1).take(len - 2)`,
where `len` is the byte length, exactly as in the source. -/
def quotedStringFromStr (s : List Char) : Except LineError (List Char) :=
  match s.head?, s.getLast? with
  | some first, some last =>
    if byteLen s < 2 ∨ first ≠ '"' ∨ last ≠ '"' then .error .noQuoteDelimiter
    else
      linearParse ⟨quotedSpecialCharacters, escapeCharacter, .forbid⟩
        ((s.drop 1).take (byteLen s - 2))
  | _, _ => .error .noQuoteDelimiter

/-- `Display for QuotedString`. -/
def quotedStringDisplay (s : List Char) : List Char :=
  '"' :: formatChars quotedSpecialCharacters escapeCharacter s ++ ['"']

/-! ## Integer types (src/types/integer.rs) -/

/-- Value of a non-empty all-digit string. -/
def digitsToNat (ds : List Char) : Nat :=
  ds.foldl (fun acc c => 10 * acc + (c.toNat - '0'.toNat)) 0

/-- Digit-run and range validation shared by the signed integer parser. -/
def i64Core (ds : List Char) (neg : Bool) : Option Int :=
  if ds = [] ∨ ¬ ds.all Char.isDigit then none
  else
    let n := digitsToNat ds
    if neg then
      if n ≤ 2 ^ 63 then some (-(n : Int)) else none
    else
      if n ≤ 2 ^ 63 - 1 then some (n : Int) else none

/-- Models `str::parse::<i64>()` from the Rust standard library: an optional
sign followed by one or more ASCII digits, with the value required to fit in
a signed 64-bit integer. -/
def rustParseI64 : List Char → Option Int
  | '+' :: rest => i64Core rest false
  | '-' :: rest => i64Core rest true
  | rest => i64Core rest false

/-- Digit-run and range validation shared by the unsigned integer parser. -/
def u64Core (ds : List Char) : Option Nat :=
  if ds = [] ∨ ¬ ds.all Char.isDigit then none
  else
    let n := digitsToNat ds
    if n ≤ 2 ^ 64 - 1 then some n else none

/-- Models `str::parse::<u64>()`: an optional plus sign followed by one or
more ASCII digits, value below `2^64`; a minus sign is rejected. -/
def rustParseU64 : List Char → Option Nat
  | '+' :: rest => u64Core rest
  | rest => u64Core rest

/-- `str::split_once(c)`: split at the first occurrence of `c`. -/
def splitOnce (c : Char) : List Char → Option (List Char × List Char)
  | [] => none
  | x :: rest =>
    if x = c then some ([], rest)
    else
      match splitOnce c rest with
      | none => none
      | some (a, b) => some (x :: a, b)

/-- `FromStr for InfluxInteger`: split at the first `i`, require nothing
after it, parse the prefix as `i64`. -/
def influxIntegerFromStr (s : List Char) : Except LineError Int :=
  match splitOnce 'i' s with
  | none => .error .integerNotParsed
  | some (intSlice, rest) =>
    if rest ≠ [] then .error .integerNotParsed
    else
      match rustParseI64 intSlice with
      | none => .error .integerNotParsed
      | some n => .ok n

/-- `FromStr for InfluxUInteger`: split at the first `u`, require nothing
after it, parse the prefix as `u64`. -/
def influxUIntegerFromStr (s : List Char) : Except LineError Nat :=
  match splitOnce 'u' s with
  | none => .error .uintegerNotParsed
  | some (uintSlice, rest) =>
    if rest ≠ [] then .error .uintegerNotParsed
    else
      match rustParseU64 uintSlice with
      | none => .error .uintegerNotParsed
      | some n => .ok n

/-! ## Boolean (src/types/boolean.rs) -/

/-- `FromStr for Boolean`: the six accepted spellings per polarity. -/
def booleanFromStr (s : List Char) : Except LineError Bool :=
  if s = "t".data ∨ s = "T".data ∨ s = "true".data ∨ s = "True".data ∨
      s = "TRUE".data then .ok true
  else if s = "f".data ∨ s = "F".data ∨ s = "false".data ∨ s = "False".data ∨
      s = "FALSE".data then .ok false
  else .error .booleanNotParsed

/-! ## Timestamp (src/types/timestamp.rs) -/

/-- `FromStr for Timestamp`: a bare signed 64-bit integer. -/
def timestampFromStr (s : List Char) : Except LineError Int :=
  match rustParseI64 s with
  | none => .error .timestampNotParsed
  | some n => .ok n

/-! ## Field values (src/types/value.rs) -/

def stripSign : List Char → List Char
  | '+' :: rest => rest
  | '-' :: rest => rest
  | s => s

def expTailOk : List Char → Bool
  | [] => true
  | 'e' :: rest =>
      let ds := stripSign rest
      ds ≠ [] && ds.all Char.isDigit
  | 'E' :: rest =>
      let ds := stripSign rest
      ds ≠ [] && ds.all Char.isDigit
  | _ => false

/-- Models the acceptance grammar of `str::parse::<f64>()` from the Rust
standard library (documented for `f64::from_str`): an optional sign, then a
case-insensitive `inf`/`infinity`/`nan`, or a decimal number
`Count '.'? Count? Exp?` or `'.' Count Exp?` with `Exp ::= (e|E) Sign? Count`.
The numeric value (IEEE-754 rounding) is not modelled; when a token is
accepted, the field value keeps the token itself. -/
def rustF64Accepts (s : List Char) : Bool :=
  let body := stripSign s
  let lower := body.map Char.toLower
  if lower = "inf".data ∨ lower = "infinity".data ∨ lower = "nan".data then true
  else
    let d1 := body.takeWhile Char.isDigit
    let r1 := body.dropWhile Char.isDigit
    match r1 with
    | '.' :: r2 =>
        let d2 := r2.takeWhile Char.isDigit
        let r3 := r2.dropWhile Char.isDigit
        (d1 ≠ [] || d2 ≠ []) && expTailOk r3
    | _ => d1 ≠ [] && expTailOk r1

/-- The closed field-value sum type `InfluxValue`.  The `float` payload is
the accepted source token (see `rustF64Accepts`); all other payloads carry
the decoded value. -/
inductive InfluxValue where
  | float (raw : List Char)
  | integer (n : Int)
  | uinteger (n : Nat)
  | boolean (b : Bool)
  | string (s : List Char)
  deriving DecidableEq

/-- `FromStr for InfluxValue`: attempt Float, Integer, UInteger, Boolean,
QuotedString in this order, returning the first success; otherwise
`BadValue`. -/
def influxValueFromStr (s : List Char) : Except LineError InfluxValue :=
  if rustF64Accepts s then .ok (.float s)
  else
    match influxIntegerFromStr s with
    | .ok n => .ok (.integer n)
    | .error _ =>
      match influxUIntegerFromStr s with
      | .ok n => .ok (.uinteger n)
      | .error _ =>
        match booleanFromStr s with
        | .ok b => .ok (.boolean b)
        | .error _ =>
          match quotedStringFromStr s with
          | .ok q => .ok (.string q)
          | .error _ => .error .badValue

/-- Decimal rendering of a natural number. -/
def natToChars (n : Nat) : List Char :=
  Nat.toDigits 10 n

/-- Decimal rendering of an integer (Rust `Display` for `i64`). -/
def intToChars (n : Int) : List Char :=
  if n < 0 then '-' :: natToChars n.natAbs else natToChars n.natAbs

/-- `Display for InfluxValue`.  The float arm renders the parsed double via
Rust's debug formatting; with the float payload abstracted as its source
token, the token is kept verbatim (no theorem relies on float formatting). -/
def influxValueDisplay : InfluxValue → List Char
  | .float raw => raw
  | .integer n => intToChars n ++ ['i']
  | .uinteger n => natToChars n ++ ['u']
  | .boolean b => if b then "true".data else "false".data
  | .string s => quotedStringDisplay s

/-! ## Key-value storage (src/line/hash_like.rs) -/

structure KeyValuePair (V : Type) where
  key : KeyName
  value : V
  deriving DecidableEq

structure KeyValueStorage (V : Type) where
  storage : List (KeyValuePair V)
  deriving DecidableEq

namespace KeyValueStorage

def empty {V : Type} : KeyValueStorage V := ⟨[]⟩

def isEmpty {V : Type} (s : KeyValueStorage V) : Bool :=
  s.storage.isEmpty

/-- `KeyValueStorage::add`: replace the value of an existing key in place,
else push the pair at the end. -/
def addPair {V : Type} : List (KeyValuePair V) → KeyValuePair V → List (KeyValuePair V)
  | [], pair => [pair]
  | item :: rest, pair =>
    if item.key = pair.key then { key := item.key, value := pair.value } :: rest
    else item :: addPair rest pair

def put {V : Type} (s : KeyValueStorage V) (key : KeyName) (value : V) :
    KeyValueStorage V :=
  ⟨addPair s.storage ⟨key, value⟩⟩

/-- `KeyValueStorage::get`: first pair with a matching key. -/
def get {V : Type} (s : KeyValueStorage V) (key : List Char) : Option V :=
  (s.storage.find? fun item => item.key.raw = key).map (·.value)

/-- `FromIterator for KeyValueStorage`: collect the pairs as given, with no
deduplication. -/
def fromList {V : Type} (l : List (KeyName × V)) : KeyValueStorage V :=
  ⟨l.map fun p => ⟨p.1, p.2⟩⟩

def keys {V : Type} (s : KeyValueStorage V) : List (List Char) :=
  s.storage.map fun item => item.key.raw

end KeyValueStorage

/-! ## The record type (src/line/mod.rs) -/

structure InfluxLine where
  measurement : MeasurementName
  tags : KeyValueStorage KeyName
  fields : KeyValueStorage InfluxValue
  timestamp : Option Int
  deriving DecidableEq

namespace InfluxLine

/-- `InfluxLine::full`: collect tags and fields, reject an empty field set. -/
def full (measurement : MeasurementName) (tags : List (KeyName × KeyName))
    (fields : List (KeyName × InfluxValue)) (timestamp : Option Int) :
    Except LineError InfluxLine :=
  let actualFields := KeyValueStorage.fromList fields
  if actualFields.isEmpty then .error .noFields
  else
    .ok
      { measurement
        tags := KeyValueStorage.fromList tags
        fields := actualFields
        timestamp }

/-- `InfluxLine::new`: minimal line with one field and no tags. -/
def new (measurement : MeasurementName) (field : KeyName) (value : InfluxValue) :
    InfluxLine :=
  { measurement
    tags := KeyValueStorage.empty
    fields := KeyValueStorage.fromList [(field, value)]
    timestamp := none }

/-- `InfluxLine::with_timestamp`: override the timestamp. -/
def withTimestamp (line : InfluxLine) (timestamp : Int) : InfluxLine :=
  { line with timestamp := some timestamp }

/-- `InfluxLine::with_tag`: upsert a tag. -/
def withTag (line : InfluxLine) (tag : KeyName) (value : KeyName) : InfluxLine :=
  { line with tags := line.tags.put tag value }

/-- `InfluxLine::with_field`: upsert a field. -/
def withField (line : InfluxLine) (field : KeyName) (value : InfluxValue) :
    InfluxLine :=
  { line with fields := line.fields.put field value }

/-- `Display for InfluxLine`: measurement, comma-joined tags, space, the
comma-joined fields, and the optional timestamp prefixed by a space. -/
def display (line : InfluxLine) : List Char :=
  line.measurement.display
    ++ (line.tags.storage.flatMap fun p =>
        ',' :: p.key.display ++ '=' :: p.value.display)
    ++ (line.fields.storage.enum.flatMap fun p =>
        (if p.1 = 0 then ' ' else ',') ::
          p.2.key.display ++ '=' :: influxValueDisplay p.2.value)
    ++ (match line.timestamp with
        | some ts => ' ' :: intToChars ts
        | none => [])

end InfluxLine

/-! ## Segment tokenizer (src/line/parsing/) -/

/-- Escaped-state flag of the scanners (`enum Escaped`). -/
inductive Escaped where
  | yes
  | no
  deriving DecidableEq

inductive MeasurementTail where
  | tags (rest : List Char)
  | fields (rest : List Char)
  deriving DecidableEq

/-- Scanner loop of `MeasurementParser::process` past position 0: split at
the first delimiter reached in unescaped state.  The prefix-accumulating
recursion returns exactly the two slices of `exclusive_split_at`.  The
state transition of the source collapses to: the scanner is escaped after a
character exactly when that character is a backslash (a backslash met in
escaped state keeps the escaped state). -/
def measurementGo (esc : Escaped) : List Char → Except LineError (List Char × MeasurementTail)
  | [] => .error .noWhitespaceDelimiter
  | c :: rest =>
    if esc = .no ∧ c = ',' then .ok ([], .tags rest)
    else if esc = .no ∧ c = ' ' then .ok ([], .fields rest)
    else
      match measurementGo (if c = '\\' then .yes else .no) rest with
      | .error e => .error e
      | .ok (m, tail) => .ok (c :: m, tail)

/-- `MeasurementParser::process`: a delimiter at position 0 (necessarily in
unescaped state) is `NoMeasurement`; otherwise run the scanner loop. -/
def measurementProcess (line : List Char) : Except LineError (List Char × MeasurementTail) :=
  match line with
  | [] => .error .noWhitespaceDelimiter
  | c :: _ =>
    if c = ',' ∨ c = ' ' then .error .noMeasurement
    else measurementGo .no line

/-- Scanner loop of `KeyParser::process`: split at the first unescaped `=`;
an unescaped space or comma is an error; end of input is `NoValue`. -/
def keyGo (esc : Escaped) : List Char → Except LineError (List Char × List Char)
  | [] => .error .noValue
  | c :: rest =>
    if esc = .no ∧ c = ' ' then .error .unescapedSpecialCharacter
    else if esc = .no ∧ c = ',' then .error .unescapedSpecialCharacter
    else if esc = .no ∧ c = '=' then .ok ([], rest)
    else
      match keyGo (if esc = .no ∧ c = '\\' then .yes else .no) rest with
      | .error e => .error e
      | .ok (k, tail) => .ok (c :: k, tail)

def keyProcess (line : List Char) : Except LineError (List Char × List Char) :=
  keyGo .no line

inductive TagTail where
  | tag (rest : List Char)
  | fields (rest : List Char)
  deriving DecidableEq

/-- Scanner loop of `TagValueParser::process` past position 0.  Note that in
escaped state a backslash keeps the escaped state. -/
def tagValueGo (esc : Escaped) : List Char → Except LineError (List Char × TagTail)
  | [] => .error .noFields
  | c :: rest =>
    if esc = .no ∧ c = ',' then .ok ([], .tag rest)
    else if esc = .no ∧ c = ' ' then .ok ([], .fields rest)
    else
      match tagValueGo (if c = '\\' then .yes else .no) rest with
      | .error e => .error e
      | .ok (v, tail) => .ok (c :: v, tail)

/-- `TagValueParser::process`: a delimiter at position 0 is `NoValue`. -/
def tagValueProcess (line : List Char) : Except LineError (List Char × TagTail) :=
  match line with
  | [] => .error .noFields
  | c :: _ =>
    if c = ',' ∨ c = ' ' then .error .noValue
    else tagValueGo .no line

inductive FieldTail where
  | timestamp (rest : List Char)
  | field (rest : List Char)
  | none
  deriving DecidableEq

/-- Scanner loop of `SimpleValueParser::process`.  A backslash anywhere is an
error; a newline terminates the value and drops the rest of the input; the
match arms are checked in source order (backslash before the position-0
delimiter check). -/
def simpleValueGo (first : Bool) : List Char → Except LineError (List Char × FieldTail)
  | [] => .ok ([], .none)
  | c :: rest =>
    if c = '\\' then .error .unexpectedEscapeSymbol
    else if first ∧ (c = ' ' ∨ c = ',') then .error .noValue
    else if c = ' ' then .ok ([], .timestamp rest)
    else if c = ',' then .ok ([], .field rest)
    else if c = '\n' then .ok ([], .none)
    else
      match simpleValueGo false rest with
      | .error e => .error e
      | .ok (v, tail) => .ok (c :: v, tail)

def simpleValueProcess (line : List Char) : Except LineError (List Char × FieldTail) :=
  simpleValueGo true line

/-- States of `StringValueParser`. -/
inductive StrState where
  | start
  | leftQuote
  | content
  | rightQuote
  deriving DecidableEq

inductive StrStep where
  | toTimestamp
  | toNextField
  | continue_ (st : StrState) (esc : Escaped)

/-- `StringValueParser::consume_char`, with each state's arms rendered as an
if-chain over the character. -/
def strConsumeChar (st : StrState) (esc : Escaped) (c : Char) :
    Except LineError StrStep :=
  match st with
  | .start =>
    if c = '"' then .ok (.continue_ .leftQuote esc)
    else .error .noQuoteDelimiter
  | .leftQuote =>
    if c = '"' then .ok (.continue_ .rightQuote esc)
    else if c = '\\' then .ok (.continue_ .content .yes)
    else .ok (.continue_ .content esc)
  | .content =>
    match esc with
    | .no =>
      if c = '\\' then .ok (.continue_ .content .yes)
      else if c = '"' then .ok (.continue_ .rightQuote .no)
      else .ok (.continue_ .content .no)
    | .yes =>
      if c = '\\' ∨ c = '"' then .ok (.continue_ .content .no)
      else .error .unexpectedEscapeSymbol
  | .rightQuote =>
    if c = ',' then .ok .toNextField
    else if c = ' ' then .ok .toTimestamp
    else .error .symbolsAfterClosedString

/-- Scanner loop of `StringValueParser::process`. -/
def stringValueGo (st : StrState) (esc : Escaped) :
    List Char → Except LineError (List Char × FieldTail)
  | [] =>
    match st with
    | .rightQuote => .ok ([], .none)
    | .start => .error .failed
    | .leftQuote => .error .noQuoteDelimiter
    | .content => .error .noQuoteDelimiter
  | c :: rest =>
    match strConsumeChar st esc c with
    | .error e => .error e
    | .ok .toNextField => .ok ([], .field rest)
    | .ok .toTimestamp => .ok ([], .timestamp rest)
    | .ok (.continue_ st' esc') =>
      match stringValueGo st' esc' rest with
      | .error e => .error e
      | .ok (v, tail) => .ok (c :: v, tail)

def stringValueProcess (line : List Char) : Except LineError (List Char × FieldTail) :=
  stringValueGo .start .no line

/-- `FieldValueParser::process`: dispatch on the first character (a double
quote selects the quoted-string sub-scanner). -/
def fieldValueProcess (line : List Char) : Except LineError (List Char × FieldTail) :=
  match line.head? with
  | some c => if c = '"' then stringValueProcess line else simpleValueProcess line
  | none => .error .noValue

structure RawPair where
  key : List Char
  value : List Char
  deriving DecidableEq

/-- `FieldParser::process`: key segment, then value segment. -/
def fieldProcess (line : List Char) : Except LineError (RawPair × FieldTail) :=
  match keyProcess line with
  | .error e => .error e
  | .ok (key, valueTail) =>
    match fieldValueProcess valueTail with
    | .error e => .error e
    | .ok (value, tail) => .ok (⟨key, value⟩, tail)

/-- `TagParser::process`: key segment, then tag-value segment. -/
def tagProcess (line : List Char) : Except LineError (RawPair × TagTail) :=
  match keyProcess line with
  | .error e => .error e
  | .ok (key, valueTail) =>
    match tagValueProcess valueTail with
    | .error e => .error e
    | .ok (value, tail) => .ok (⟨key, value⟩, tail)

structure RawLine where
  measurement : List Char
  tags : List RawPair
  fields : List RawPair
  timestamp : Option (List Char)
  deriving DecidableEq

/-- The `parse_tags` loop of `LinearLineParser`, with a fuel parameter for
structural recursion.  Each iteration strictly shortens the input (the tag
scanner always consumes at least the `=` delimiter), so any fuel above the
input length is enough: see `parseTagsAux_congr`. -/
def parseTagsAux : Nat → List Char → Except LineError (List RawPair × List Char)
  | 0, _ => .error .failed
  | fuel + 1, line =>
    match tagProcess line with
    | .error e => .error e
    | .ok (pair, .tag remaining) =>
      match parseTagsAux fuel remaining with
      | .error e => .error e
      | .ok (pairs, fieldsTail) => .ok (pair :: pairs, fieldsTail)
    | .ok (pair, .fields fieldsTail) => .ok ([pair], fieldsTail)

/-- The `parse_fields` loop of `LinearLineParser`, fueled like
`parseTagsAux`. -/
def parseFieldsAux : Nat → List Char → Except LineError (List RawPair × Option (List Char))
  | 0, _ => .error .failed
  | fuel + 1, line =>
    match fieldProcess line with
    | .error e => .error e
    | .ok (pair, .field fieldTail) =>
      match parseFieldsAux fuel fieldTail with
      | .error e => .error e
      | .ok (pairs, timestamp) => .ok (pair :: pairs, timestamp)
    | .ok (pair, .timestamp ts) => .ok ([pair], some ts)
    | .ok (pair, .none) => .ok ([pair], none)

def parseTags (line : List Char) : Except LineError (List RawPair × List Char) :=
  parseTagsAux (line.length + 1) line

def parseFields (line : List Char) : Except LineError (List RawPair × Option (List Char)) :=
  parseFieldsAux (line.length + 1) line

/-- `LinearLineParser::process`: measurement scan, then the tag loop (if a
comma followed the measurement), then the field loop. -/
def rawLineParse (line : List Char) : Except LineError RawLine :=
  match measurementProcess line with
  | .error e => .error e
  | .ok (measurement, tail) =>
    match
      (match tail with
       | .tags tagsTail =>
         match parseTags tagsTail with
         | .error e => .error e
         | .ok (tags, fieldsTail) => .ok (tags, fieldsTail)
       | .fields fieldsTail =>
         .ok ([], fieldsTail) : Except LineError (List RawPair × List Char)) with
    | .error e => .error e
    | .ok (tags, fieldsTail) =>
      match parseFields fieldsTail with
      | .error e => .error e
      | .ok (fields, timestamp) =>
        .ok { measurement, tags, fields, timestamp }

/-- Decoding one raw tag pair (`TryFrom<RawKeyValuePair> for (KeyName, KeyName)`). -/
def decodeTagPair (p : RawPair) : Except LineError (KeyName × KeyName) :=
  match KeyName.fromStr p.key with
  | .error e => .error e
  | .ok k =>
    match KeyName.fromStr p.value with
    | .error e => .error e
    | .ok v => .ok (k, v)

/-- Decoding one raw field pair (`TryFrom<RawKeyValuePair> for (KeyName, InfluxValue)`). -/
def decodeFieldPair (p : RawPair) : Except LineError (KeyName × InfluxValue) :=
  match KeyName.fromStr p.key with
  | .error e => .error e
  | .ok k =>
    match influxValueFromStr p.value with
    | .error e => .error e
    | .ok v => .ok (k, v)

def decodeList {A : Type} (f : RawPair → Except LineError A) :
    List RawPair → Except LineError (List A)
  | [] => .ok []
  | p :: rest =>
    match f p with
    | .error e => .error e
    | .ok a =>
      match decodeList f rest with
      | .error e => .error e
      | .ok as_ => .ok (a :: as_)

/-- `TryFrom<RawLine> for InfluxLine`: decode every raw slice, then assemble
through `InfluxLine::full`. -/
def lineDecode (raw : RawLine) : Except LineError InfluxLine :=
  match MeasurementName.fromStr raw.measurement with
  | .error e => .error e
  | .ok measurement =>
    match decodeList decodeTagPair raw.tags with
    | .error e => .error e
    | .ok tags =>
      match decodeList decodeFieldPair raw.fields with
      | .error e => .error e
      | .ok fields =>
        match
          (match raw.timestamp with
           | some ts =>
             match timestampFromStr ts with
             | .error e => .error e
             | .ok t => .ok (some t)
           | none => .ok none : Except LineError (Option Int)) with
        | .error e => .error e
        | .ok timestamp => InfluxLine.full measurement tags fields timestamp

/-- `FromStr for InfluxLine`: tokenize, then decode. -/
def lineFromStr (s : List Char) : Except LineError InfluxLine :=
  match rawLineParse s with
  | .error e => .error e
  | .ok raw => lineDecode raw

/-! ## Spec-side auxiliary definitions used by the claim theorems -/

/-- The five field-value decoders in the order the source tries them:
Float, Integer, UInteger, Boolean, QuotedString. -/
def valueDecoders : List (List Char → Option InfluxValue) :=
  [fun s => if rustF64Accepts s then some (.float s) else none,
   fun s => (influxIntegerFromStr s).toOption.map .integer,
   fun s => (influxUIntegerFromStr s).toOption.map .uinteger,
   fun s => (booleanFromStr s).toOption.map .boolean,
   fun s => (quotedStringFromStr s).toOption.map .string]

/-- The records reachable through the public interface: built by `full`,
`new`, the builder methods `with_tag` / `with_field` / `with_timestamp`
(whose fallible `try_*` counterparts delegate to the same operations), or
produced by parsing wire text. -/
inductive Reachable : InfluxLine → Prop where
  | full (m : MeasurementName) (tags : List (KeyName × KeyName))
      (fields : List (KeyName × InfluxValue)) (ts : Option Int) (l : InfluxLine) :
      InfluxLine.full m tags fields ts = .ok l → Reachable l
  | new (m : MeasurementName) (f : KeyName) (v : InfluxValue) :
      Reachable (InfluxLine.new m f v)
  | withTag (l : InfluxLine) (t v : KeyName) :
      Reachable l → Reachable (l.withTag t v)
  | withField (l : InfluxLine) (f : KeyName) (v : InfluxValue) :
      Reachable l → Reachable (l.withField f v)
  | withTimestamp (l : InfluxLine) (ts : Int) :
      Reachable l → Reachable (l.withTimestamp ts)
  | fromStr (s : List Char) (l : InfluxLine) :
      lineFromStr s = .ok l → Reachable l

/-- Spec-side description of the delimiter the measurement scan stops at:
the first comma or space not immediately preceded by a backslash; `prev` is
the character just before the current position. -/
def findRawDelim (prev : Option Char) : List Char → Option Nat
  | [] => none
  | c :: rest =>
    if (c = ',' ∨ c = ' ') ∧ prev ≠ some '\\' then some 0
    else (findRawDelim (some c) rest).map (· + 1)

/-- Which tail variant a delimiter character selects. -/
def mtailOf (d : Char) (rest : List Char) : MeasurementTail :=
  if d = ',' then .tags rest else .fields rest

def mtailApp : MeasurementTail → List Char → MeasurementTail
  | .tags r, t => .tags (r ++ t)
  | .fields r, t => .fields (r ++ t)

def tagTailApp : TagTail → List Char → TagTail
  | .tag r, t => .tag (r ++ t)
  | .fields r, t => .fields (r ++ t)

def ftailApp : FieldTail → List Char → FieldTail
  | .field r, t => .field (r ++ t)
  | .timestamp r, t => .timestamp (r ++ t)
  | .none, _ => .none

/-! ## Claim C1: parse/format round-trip -/

/-- C1: the claim "for every record R parsed from some valid line text T,
`parse(format(R))` succeeds and equals R" fails on the code.  The line
`m a\\=1i` parses to a record whose field key is the two-character string
`a\`; the formatter escapes only comma, equals and space — never the escape
character itself — so the record formats to `m a\=1i`, in which `\=` now
reads as an escaped equals sign: re-parsing finds no key/value delimiter and
fails with `NoValue` instead of returning R. -/
theorem C1_roundtrip_violated :
    lineFromStr "m a\\\\=1i".data =
        .ok { measurement := ⟨"m".data⟩, tags := ⟨[]⟩,
              fields := ⟨[⟨⟨"a\\".data⟩, .integer 1⟩]⟩, timestamp := none } ∧
    InfluxLine.display
        { measurement := ⟨"m".data⟩, tags := ⟨[]⟩,
          fields := ⟨[⟨⟨"a\\".data⟩, .integer 1⟩]⟩, timestamp := none } =
      "m a\\=1i".data ∧
    lineFromStr "m a\\=1i".data = .error .noValue := by
  exact ⟨by decide, by decide, by decide⟩

/-! ## Claim C2: uniqueness of tag/field keys -/

/-- C2: the claim "every record reachable through the public interface has
pairwise-distinct tag keys and field keys" fails on the code.
`KeyValueStorage`'s `FromIterator` collects pairs without deduplication, so
both `InfluxLine::full` and wire parsing accept repeated field keys and keep
both entries: the resulting key list `[f, f]` is not `Nodup`. -/
theorem C2_duplicate_keys :
    (InfluxLine.full ⟨"m".data⟩ []
          [(⟨"f".data⟩, .integer 1), (⟨"f".data⟩, .integer 2)] none).map
        (fun l => l.fields.keys) = .ok ["f".data, "f".data] ∧
    (lineFromStr "m f=1i,f=2i".data).map (fun l => l.fields.keys) =
        .ok ["f".data, "f".data] ∧
    ¬ (["f".data, "f".data] : List (List Char)).Nodup := by
  exact ⟨by decide, by decide, by decide⟩

/-! ## Claim C9: direct name constructors -/

/-- C9: `KeyName::new` and `TryFrom for MeasurementName` accept exactly the
strings that are non-empty and do not start with `_`, storing the string
verbatim — no validation of special characters (spaces, commas, equals
signs, quotes, backslashes, newlines) happens at construction time. -/
theorem C9_name_constructors : ∀ s : List Char,
    (KeyName.new s = .ok ⟨s⟩ ↔ ¬(s = [] ∨ s.head? = some '_')) ∧
    (MeasurementName.tryFrom s = .ok ⟨s⟩ ↔ ¬(s = [] ∨ s.head? = some '_')) ∧
    ((s = [] ∨ s.head? = some '_') →
      KeyName.new s = .error .nameRestriction ∧
      MeasurementName.tryFrom s = .error .nameRestriction) := by
  intro s
  by_cases h : s = [] ∨ s.head? = some '_' <;>
    simp [KeyName.new, MeasurementName.tryFrom, h]

/-- Witness for C9 at a name full of special characters (space, comma,
equals, double quote, backslash, newline). -/
theorem C9_name_constructors_witness :
    KeyName.new "a ,=\"\\\n".data = .ok ⟨"a ,=\"\\\n".data⟩ ∧
    MeasurementName.tryFrom "a ,=\"\\\n".data = .ok ⟨"a ,=\"\\\n".data⟩ :=
  ⟨(C9_name_constructors "a ,=\"\\\n".data).1.mpr (by decide),
   (C9_name_constructors "a ,=\"\\\n".data).2.1.mpr (by decide)⟩

/-! ## Claim C10: with_timestamp frame conditions -/

/-- C10: `with_timestamp` sets the timestamp to `Some ts` (overriding any
previous value) and leaves measurement, tag set and field set unchanged. -/
theorem C10_with_timestamp_frame : ∀ (l : InfluxLine) (ts : Int),
    (l.withTimestamp ts).timestamp = some ts ∧
    (l.withTimestamp ts).measurement = l.measurement ∧
    (l.withTimestamp ts).tags = l.tags ∧
    (l.withTimestamp ts).fields = l.fields := by
  intro l ts
  exact ⟨rfl, rfl, rfl, rfl⟩

/-- Witness for C10: overriding an already-present timestamp on a concrete
record. -/
theorem C10_with_timestamp_frame_witness :
    (((InfluxLine.new ⟨"m".data⟩ ⟨"f".data⟩ (.integer 1)).withTimestamp 3).withTimestamp
        5).timestamp = some 5 :=
  (C10_with_timestamp_frame ((InfluxLine.new ⟨"m".data⟩ ⟨"f".data⟩
    (.integer 1)).withTimestamp 3) 5).1

/-! ## Claim C8: trailing escape character -/

theorem characterType_escape_iff (cfg : ParserCfg) (c : Char) :
    characterType cfg c = .escape ↔ c = cfg.escapeCharacter := by
  unfold characterType
  split
  · simp_all
  · split <;> simp_all

theorem processChar_escape_of_pending (cfg : ParserCfg) (st : ParserState)
    (c : Char) (out : List Char)
    (h : processChar cfg st c = .ok (.seenEscapeCharacter, out)) :
    c = cfg.escapeCharacter := by
  unfold processChar at h
  cases st <;> rcases hct : characterType cfg c with _ | _ | _ <;>
    simp [hct] at h <;>
    first
      | exact (characterType_escape_iff cfg c).mp hct
      | cases hpol : cfg.strayEscapes <;> simp [hpol] at h

theorem linearRun_pending_last (cfg : ParserCfg) :
    ∀ (s : List Char) (st : ParserState) (buf : List Char),
      linearRun cfg st s = .ok (.seenEscapeCharacter, buf) →
      (s = [] ∧ st = .seenEscapeCharacter) ∨
        s.getLast? = some cfg.escapeCharacter := by
  intro s
  induction s with
  | nil =>
    intro st buf h
    simp [linearRun] at h
    exact .inl ⟨rfl, h.1⟩
  | cons c rest ih =>
    intro st buf h
    simp only [linearRun] at h
    rcases hp : processChar cfg st c with e | ⟨st', out⟩ <;> rw [hp] at h <;>
      dsimp only at h
    · exact absurd h (by simp)
    · rcases hr : linearRun cfg st' rest with e | ⟨stFin, buf'⟩ <;> rw [hr] at h <;>
        dsimp only at h
      · exact absurd h (by simp)
      · simp at h
        obtain ⟨hst, -⟩ := h
        subst hst
        rcases ih st' buf' hr with ⟨hrest, hst'⟩ | hlast
        · subst hrest hst'
          exact .inr (by simpa using processChar_escape_of_pending cfg st c out hp)
        · refine .inr ?_
          rcases rest with - | ⟨d, ds⟩
          · simp at hlast
          · simpa [List.getLast?] using hlast

/-- C8: for every special-character set, escape character and stray-escape
policy, when processing the whole input succeeds but ends in the
`PendingEscape` (`SeenEscapeCharacter`) state, the decode fails with the
trailing-escape-character error (and the input indeed ends with the escape
character). -/
theorem C8_trailing_escape (cfg : ParserCfg) (s buf : List Char)
    (h : linearRun cfg .seenCharacter s = .ok (.seenEscapeCharacter, buf)) :
    linearParse cfg s = .error .trailingEscapeCharacter ∧
      s.getLast? = some cfg.escapeCharacter := by
  constructor
  · unfold linearParse
    rw [h]
    rfl
  · rcases linearRun_pending_last cfg s .seenCharacter buf h with ⟨-, hst⟩ | hlast
    · exact absurd hst (by simp)
    · exact hlast

/-- Witness for C8: the two-character input `a\` under the `Allow` policy
with the key special set. -/
theorem C8_trailing_escape_witness :
    linearParse ⟨[',', '=', ' '], '\\', .allow⟩ ['a', '\\'] =
      .error .trailingEscapeCharacter :=
  (C8_trailing_escape ⟨[',', '=', ' '], '\\', .allow⟩ ['a', '\\'] ['a']
    (by decide)).1

/-! ## Claim C5: integer suffix handling -/

theorem splitOnce_eq_append (c : Char) :
    ∀ (s a b : List Char), splitOnce c s = some (a, b) → s = a ++ c :: b := by
  intro s
  induction s with
  | nil => intro a b h; simp [splitOnce] at h
  | cons x rest ih =>
    intro a b h
    unfold splitOnce at h
    by_cases hx : x = c
    · simp [hx] at h
      obtain ⟨ha, hb⟩ := h
      subst ha hb hx
      rfl
    · rcases hr : splitOnce c rest with - | ⟨a', b'⟩ <;> rw [hr] at h <;>
        simp [hx] at h
      obtain ⟨ha, hb⟩ := h
      subst ha hb
      simpa using ih a' b' hr

theorem splitOnce_append_self (c : Char) :
    ∀ (a b : List Char), c ∉ a → splitOnce c (a ++ c :: b) = some (a, b) := by
  intro a
  induction a with
  | nil => intro b _; simp [splitOnce]
  | cons x xs ih =>
    intro b hmem
    have hx : ¬x = c := fun hx => hmem (by simp [hx])
    have hxs : c ∉ xs := fun hm => hmem (by simp [hm])
    simp only [List.cons_append]
    unfold splitOnce
    rw [ih b hxs]
    simp [hx]

theorem i64Core_digits (ds : List Char) (neg : Bool) (n : Int)
    (h : i64Core ds neg = some n) : ds.all Char.isDigit := by
  unfold i64Core at h
  by_cases hc : ds = [] ∨ ¬ ds.all Char.isDigit
  · rw [if_pos hc] at h
    exact absurd h (by simp)
  · push_neg at hc
    exact hc.2

theorem u64Core_digits (ds : List Char) (n : Nat)
    (h : u64Core ds = some n) : ds.all Char.isDigit := by
  unfold u64Core at h
  by_cases hc : ds = [] ∨ ¬ ds.all Char.isDigit
  · rw [if_pos hc] at h
    exact absurd h (by simp)
  · push_neg at hc
    exact hc.2

theorem rustParseI64_chars (t : List Char) (n : Int)
    (h : rustParseI64 t = some n) :
    ∀ x ∈ t, x = '+' ∨ x = '-' ∨ x.isDigit := by
  intro x hx
  unfold rustParseI64 at h
  split at h
  · rename_i rest
    have hall := i64Core_digits rest false n h
    rcases List.mem_cons.mp hx with rfl | hxr
    · exact .inl rfl
    · exact .inr (.inr (List.all_eq_true.mp hall x hxr))
  · rename_i rest
    have hall := i64Core_digits rest true n h
    rcases List.mem_cons.mp hx with rfl | hxr
    · exact .inr (.inl rfl)
    · exact .inr (.inr (List.all_eq_true.mp hall x hxr))
  · have hall := i64Core_digits t false n h
    exact .inr (.inr (List.all_eq_true.mp hall x hx))

theorem rustParseU64_chars (t : List Char) (n : Nat)
    (h : rustParseU64 t = some n) :
    ∀ x ∈ t, x = '+' ∨ x.isDigit := by
  intro x hx
  unfold rustParseU64 at h
  split at h
  · rename_i rest
    have hall := u64Core_digits rest n h
    rcases List.mem_cons.mp hx with rfl | hxr
    · exact .inl rfl
    · exact .inr (List.all_eq_true.mp hall x hxr)
  · have hall := u64Core_digits t n h
    exact .inr (List.all_eq_true.mp hall x hx)

/-- C5: the Integer decoder succeeds exactly on a valid signed 64-bit
integer literal followed by a single terminal `i`, and the UInteger decoder
exactly on a valid unsigned 64-bit literal followed by a terminal `u`.
(Splitting at the first suffix occurrence, as the code does, coincides with
splitting at the last character because a valid integer literal never
contains the suffix letter.) -/
theorem C5_integer_suffix : ∀ s : List Char,
    (∀ n : Int, influxIntegerFromStr s = .ok n ↔
      ∃ t, s = t ++ ['i'] ∧ rustParseI64 t = some n) ∧
    (∀ n : Nat, influxUIntegerFromStr s = .ok n ↔
      ∃ t, s = t ++ ['u'] ∧ rustParseU64 t = some n) := by
  intro s
  constructor
  · intro n
    constructor
    · intro h
      unfold influxIntegerFromStr at h
      rcases hs : splitOnce 'i' s with - | ⟨pre, rest⟩ <;> rw [hs] at h
      · simp at h
      · dsimp only at h
        by_cases hr : rest = []
        · subst hr
          simp only [ne_eq, not_true_eq_false, if_false, reduceIte] at h
          rcases hp : rustParseI64 pre with - | m <;> rw [hp] at h <;> simp at h
          subst h
          exact ⟨pre, splitOnce_eq_append 'i' s pre [] hs, hp⟩
        · simp [hr] at h
    · rintro ⟨t, rfl, hp⟩
      have hni : 'i' ∉ t := fun hm => by
        rcases rustParseI64_chars t n hp 'i' hm with h | h | h <;> simp_all
      unfold influxIntegerFromStr
      rw [show t ++ ['i'] = t ++ 'i' :: [] from rfl,
        splitOnce_append_self 'i' t [] hni]
      simp [hp]
  · intro n
    constructor
    · intro h
      unfold influxUIntegerFromStr at h
      rcases hs : splitOnce 'u' s with - | ⟨pre, rest⟩ <;> rw [hs] at h
      · simp at h
      · dsimp only at h
        by_cases hr : rest = []
        · subst hr
          simp only [ne_eq, not_true_eq_false, if_false, reduceIte] at h
          rcases hp : rustParseU64 pre with - | m <;> rw [hp] at h <;> simp at h
          subst h
          exact ⟨pre, splitOnce_eq_append 'u' s pre [] hs, hp⟩
        · simp [hr] at h
    · rintro ⟨t, rfl, hp⟩
      have hnu : 'u' ∉ t := fun hm => by
        rcases rustParseU64_chars t n hp 'u' hm with h | h <;> simp_all
      unfold influxUIntegerFromStr
      rw [show t ++ ['u'] = t ++ 'u' :: [] from rfl,
        splitOnce_append_self 'u' t [] hnu]
      simp [hp]

/-- Witness for C5: `12i` parses as Integer 12 and `7u` as UInteger 7. -/
theorem C5_integer_suffix_witness :
    influxIntegerFromStr "12i".data = .ok 12 ∧
    influxUIntegerFromStr "7u".data = .ok 7 :=
  ⟨((C5_integer_suffix "12i".data).1 12).mpr ⟨"12".data, by decide, by decide⟩,
   ((C5_integer_suffix "7u".data).2 7).mpr ⟨"7".data, by decide, by decide⟩⟩

/-! ## Claim C6: ordered field-value resolution -/

/-- C6: for every raw field-value string, the decoder chain of
`FromStr for InfluxValue` returns the result of the first decoder in
`valueDecoders` that succeeds, and fails with the no-recognized-value-type
error (`BadValue`) when all five fail. -/
theorem C6_ordered_value_resolution : ∀ s : List Char,
    influxValueFromStr s =
      match valueDecoders.findSome? (fun d => d s) with
      | some v => .ok v
      | none => .error .badValue := by
  intro s
  unfold influxValueFromStr valueDecoders
  by_cases hf : rustF64Accepts s
  · simp [List.findSome?, hf]
  · rcases hi : influxIntegerFromStr s with e | n <;>
      rcases hu : influxUIntegerFromStr s with e' | m <;>
        rcases hb : booleanFromStr s with e'' | b <;>
          rcases hq : quotedStringFromStr s with e''' | q <;>
            simp [List.findSome?, hf, hi, hu, hb, hq, Except.toOption]

/-- Witness-style instances for C6 at concrete inputs: `1i` is rejected by
the float decoder and accepted by the integer decoder; `t` only by the
boolean decoder; an unrecognizable token yields `BadValue`. -/
theorem C6_ordered_value_resolution_witness :
    influxValueFromStr "1i".data = .ok (.integer 1) ∧
    influxValueFromStr "t".data = .ok (.boolean true) ∧
    influxValueFromStr "nope".data = .error .badValue :=
  ⟨(C6_ordered_value_resolution "1i".data).trans (by decide),
   (C6_ordered_value_resolution "t".data).trans (by decide),
   (C6_ordered_value_resolution "nope".data).trans (by decide)⟩

/-! ## Claim C7: the field set is never empty -/

theorem addPair_ne_nil {V : Type} :
    ∀ (l : List (KeyValuePair V)) (p : KeyValuePair V),
      KeyValueStorage.addPair l p ≠ [] := by
  intro l p
  cases l with
  | nil => simp [KeyValueStorage.addPair]
  | cons item rest =>
    unfold KeyValueStorage.addPair
    split <;> simp

theorem full_fields_ne_nil (m : MeasurementName) (tags : List (KeyName × KeyName))
    (fields : List (KeyName × InfluxValue)) (ts : Option Int) (l : InfluxLine)
    (h : InfluxLine.full m tags fields ts = .ok l) : l.fields.storage ≠ [] := by
  unfold InfluxLine.full at h
  dsimp only at h
  split at h
  · exact absurd h (by simp)
  · rename_i hne
    have hl : l.fields = KeyValueStorage.fromList fields := by
      cases h
      rfl
    rw [hl]
    intro hcontra
    exact hne (by simpa [KeyValueStorage.isEmpty, List.isEmpty_iff] using hcontra)

theorem lineDecode_fields_ne_nil (raw : RawLine) (l : InfluxLine)
    (h : lineDecode raw = .ok l) : l.fields.storage ≠ [] := by
  unfold lineDecode at h
  split at h
  · exact absurd h (by simp)
  · split at h
    · exact absurd h (by simp)
    · split at h
      · exact absurd h (by simp)
      · split at h
        · exact absurd h (by simp)
        · exact full_fields_ne_nil _ _ _ _ _ h

/-- C7: every reachable record has a non-empty field set: `full` rejects an
empty field collection with `NoFields`, `new` starts from one field, no
operation removes fields, and parsing assembles through `full`. -/
theorem C7_fields_nonempty (l : InfluxLine) (h : Reachable l) :
    l.fields.storage ≠ [] := by
  induction h with
  | full m tags fields ts l hfull => exact full_fields_ne_nil m tags fields ts l hfull
  | new m f v => simp [InfluxLine.new, KeyValueStorage.fromList]
  | withTag l t v _ ih => simpa [InfluxLine.withTag] using ih
  | withField l f v _ _ => exact addPair_ne_nil _ _
  | withTimestamp l ts _ ih => simpa [InfluxLine.withTimestamp] using ih
  | fromStr s l hs =>
    unfold lineFromStr at hs
    split at hs
    · exact absurd hs (by simp)
    · exact lineDecode_fields_ne_nil _ _ hs

/-- Witness for C7 on a concrete reachable record. -/
theorem C7_fields_nonempty_witness :
    (InfluxLine.new ⟨"m".data⟩ ⟨"f".data⟩ (.integer 1)).fields.storage ≠ [] :=
  C7_fields_nonempty _ (Reachable.new ⟨"m".data⟩ ⟨"f".data⟩ (.integer 1))

/-! ## Claim C4: the measurement scan -/

theorem measurementGo_spec :
    ∀ (cs : List Char) (prev : Option Char) (esc : Escaped),
      (esc = .yes ↔ prev = some '\\') →
      measurementGo esc cs =
        match findRawDelim prev cs with
        | none => .error .noWhitespaceDelimiter
        | some i => .ok (cs.take i, mtailOf (cs.getD i ' ') (cs.drop (i + 1))) := by
  intro cs
  induction cs with
  | nil => intro prev esc _; rfl
  | cons c rest ih =>
    intro prev esc hiff
    by_cases hdelim : (c = ',' ∨ c = ' ') ∧ prev ≠ some '\\'
    · have hesc : esc = .no := by
        cases esc with
        | no => rfl
        | yes => exact absurd (hiff.mp rfl) hdelim.2
      subst hesc
      rcases hdelim.1 with hc | hc <;> subst hc <;>
        simp [measurementGo, findRawDelim, hdelim, mtailOf]
    · have hesc' : ((if c = '\\' then Escaped.yes else Escaped.no) = .yes ↔
          some c = some '\\') := by
        by_cases hc : c = '\\' <;> simp [hc]
      have hrec := ih (some c) (if c = '\\' then .yes else .no) hesc'
      have hne : ¬(esc = .no ∧ c = ',') ∧ ¬(esc = .no ∧ c = ' ') := by
        constructor <;> rintro ⟨hescno, hc⟩ <;>
          exact hdelim ⟨by simp [hc], fun hp => by
            have := hiff.mpr hp
            simp [this] at hescno⟩
      rcases hfind : findRawDelim (some c) rest with - | i <;>
        rw [hfind] at hrec <;>
        simp [measurementGo, hne.1, hne.2, hrec, findRawDelim, hdelim, hfind,
          mtailOf]

/-- C4 (amended): the measurement scan stops at the first comma or space
not immediately preceded by a backslash; such a delimiter at position 0
fails with `NoMeasurement`, end of input without one fails with
`NoWhitespaceDelimiter`, and otherwise the line splits there, with a comma
selecting the tags tail and a space the fields tail.  A delimiter preceded
by one or more backslashes — regardless of the parity of the run — counts
as escaped, because the scanner stays in escaped state across a backslash
run. -/
theorem C4_measurement_scan : ∀ s : List Char,
    measurementProcess s =
      match findRawDelim none s with
      | none => .error .noWhitespaceDelimiter
      | some 0 => .error .noMeasurement
      | some (i + 1) =>
          .ok (s.take (i + 1), mtailOf (s.getD (i + 1) ' ') (s.drop (i + 2))) := by
  intro s
  cases s with
  | nil => rfl
  | cons c rest =>
    by_cases hc : c = ',' ∨ c = ' '
    · simp [measurementProcess, findRawDelim, hc]
    · have hgo := measurementGo_spec (c :: rest) none .no (by simp)
      have hstep : findRawDelim none (c :: rest) =
          (findRawDelim (some c) rest).map (· + 1) := by
        simp [findRawDelim, hc]
      rcases hfind : findRawDelim (some c) rest with - | i <;>
        rw [hfind] at hstep <;> rw [hstep] at hgo <;>
        simp [measurementProcess, hc, hgo, hstep]

/-- Counterexample for C4 as stated: in `a\\ b` the space at position 3 is
preceded by an even-length run of backslashes, so by the claim it would be
an unescaped delimiter splitting the line; the code instead treats it as
escaped and fails with `NoWhitespaceDelimiter`. -/
theorem C4_even_backslash_counterexample :
    measurementProcess ('a' :: '\\' :: '\\' :: ' ' :: ['b']) =
        .error .noWhitespaceDelimiter ∧
    measurementProcess ('a' :: '\\' :: '\\' :: ' ' :: ['b']) ≠
        .ok (['a', '\\', '\\'], .fields ['b']) :=
  ⟨by decide, by decide⟩

/-- Witness for C4 on a line whose delimiter is preceded by a single
backslash (escaped) and then a bare space (unescaped): `a\ b c` splits at
the second space. -/
theorem C4_measurement_scan_witness :
    measurementProcess "a\\ b c".data = .ok ("a\\ b".data, .fields ['c']) :=
  (C4_measurement_scan "a\\ b c".data).trans (by decide)

/-! ## Claim C3: trailing newline tolerance

The lemmas below track how each scanner behaves when a suffix (in
particular a single trailing newline) is appended to its input. -/

theorem measurementGo_cons_comma (rest : List Char) :
    measurementGo .no (',' :: rest) = .ok ([], .tags rest) := by
  simp [measurementGo]

theorem measurementGo_cons_space (rest : List Char) :
    measurementGo .no (' ' :: rest) = .ok ([], .fields rest) := by
  simp [measurementGo]

theorem measurementGo_cons_rec (esc : Escaped) (c : Char) (rest : List Char)
    (hne : ¬(esc = .no ∧ (c = ',' ∨ c = ' '))) :
    measurementGo esc (c :: rest) =
      match measurementGo (if c = '\\' then .yes else .no) rest with
      | .error e => .error e
      | .ok (m, tail) => .ok (c :: m, tail) := by
  conv_lhs => rw [measurementGo]
  rw [if_neg (fun hcm => hne ⟨hcm.1, .inl hcm.2⟩),
    if_neg (fun hcm => hne ⟨hcm.1, .inr hcm.2⟩)]

theorem measurementGo_append :
    ∀ (cs : List Char) (esc : Escaped) (m : List Char) (tl : MeasurementTail)
      (t : List Char), measurementGo esc cs = .ok (m, tl) →
      measurementGo esc (cs ++ t) = .ok (m, mtailApp tl t) := by
  intro cs
  induction cs with
  | nil => intro esc m tl t h; exact absurd h (by simp [measurementGo])
  | cons c rest ih =>
    intro esc m tl t h
    rw [List.cons_append]
    by_cases hd : esc = .no ∧ (c = ',' ∨ c = ' ')
    · obtain ⟨rfl, hc⟩ := hd
      rcases hc with rfl | rfl
      · rw [measurementGo_cons_comma] at h
        have h' : [] = m ∧ MeasurementTail.tags rest = tl := by simpa using h
        obtain ⟨rfl, rfl⟩ := h'
        rw [measurementGo_cons_comma]
        rfl
      · rw [measurementGo_cons_space] at h
        have h' : [] = m ∧ MeasurementTail.fields rest = tl := by simpa using h
        obtain ⟨rfl, rfl⟩ := h'
        rw [measurementGo_cons_space]
        rfl
    · rw [measurementGo_cons_rec esc c rest hd] at h
      rw [measurementGo_cons_rec esc c (rest ++ t) hd]
      rcases hr : measurementGo (if c = '\\' then .yes else .no) rest with e | ⟨m0, tl0⟩ <;>
        rw [hr] at h <;> dsimp only at h
      · exact absurd h (by simp)
      · have h' : c :: m0 = m ∧ tl0 = tl := by simpa using h
        obtain ⟨rfl, rfl⟩ := h'
        rw [ih _ m0 tl0 t hr]

theorem measurementProcess_append (cs : List Char) (m : List Char)
    (tl : MeasurementTail) (t : List Char)
    (h : measurementProcess cs = .ok (m, tl)) :
    measurementProcess (cs ++ t) = .ok (m, mtailApp tl t) := by
  cases cs with
  | nil => exact absurd h (by simp [measurementProcess])
  | cons c rest =>
    unfold measurementProcess at h ⊢
    rw [List.cons_append]
    dsimp only at h ⊢
    by_cases hc : c = ',' ∨ c = ' '
    · rw [if_pos hc] at h
      exact absurd h (by simp)
    · rw [if_neg hc] at h ⊢
      rw [show c :: (rest ++ t) = (c :: rest) ++ t from rfl]
      exact measurementGo_append (c :: rest) .no m tl t h

theorem measurementGo_tail_sublist :
    ∀ (cs : List Char) (esc : Escaped) (m r : List Char),
      (measurementGo esc cs = .ok (m, .tags r) ∨
        measurementGo esc cs = .ok (m, .fields r)) → r.Sublist cs := by
  intro cs
  induction cs with
  | nil =>
    intro esc m r h
    rcases h with h | h <;> exact absurd h (by simp [measurementGo])
  | cons c rest ih =>
    intro esc m r h
    by_cases hd : esc = .no ∧ (c = ',' ∨ c = ' ')
    · obtain ⟨rfl, hc⟩ := hd
      rcases hc with rfl | rfl
      · rcases h with h | h
        · rw [measurementGo_cons_comma] at h
          have h' : m = [] ∧ rest = r := by simpa using h
          obtain ⟨-, rfl⟩ := h'
          exact List.sublist_cons_self ',' rest
        · rw [measurementGo_cons_comma] at h
          exact absurd h (by simp)
      · rcases h with h | h
        · rw [measurementGo_cons_space] at h
          exact absurd h (by simp)
        · rw [measurementGo_cons_space] at h
          have h' : m = [] ∧ rest = r := by simpa using h
          obtain ⟨-, rfl⟩ := h'
          exact List.sublist_cons_self ' ' rest
    · rcases h with h | h <;> rw [measurementGo_cons_rec esc c rest hd] at h <;>
        rcases hr : measurementGo (if c = '\\' then .yes else .no) rest with e | ⟨m0, tl0⟩ <;>
          rw [hr] at h <;> dsimp only at h
      · exact absurd h (by simp)
      · have h' : c :: m0 = m ∧ tl0 = MeasurementTail.tags r := by simpa using h
        obtain ⟨-, rfl⟩ := h'
        exact (ih _ m0 r (.inl hr)).cons c
      · exact absurd h (by simp)
      · have h' : c :: m0 = m ∧ tl0 = MeasurementTail.fields r := by simpa using h
        obtain ⟨-, rfl⟩ := h'
        exact (ih _ m0 r (.inr hr)).cons c

theorem keyGo_cons_eq (rest : List Char) :
    keyGo .no ('=' :: rest) = .ok ([], rest) := by
  simp [keyGo]

theorem keyGo_cons_rec (esc : Escaped) (c : Char) (rest : List Char)
    (hne : ¬(esc = .no ∧ (c = ' ' ∨ c = ',' ∨ c = '='))) :
    keyGo esc (c :: rest) =
      match keyGo (if esc = .no ∧ c = '\\' then .yes else .no) rest with
      | .error e => .error e
      | .ok (k, tail) => .ok (c :: k, tail) := by
  conv_lhs => rw [keyGo]
  rw [if_neg (fun hcm => hne ⟨hcm.1, .inl hcm.2⟩),
    if_neg (fun hcm => hne ⟨hcm.1, .inr (.inl hcm.2)⟩),
    if_neg (fun hcm => hne ⟨hcm.1, .inr (.inr hcm.2)⟩)]

theorem keyGo_append :
    ∀ (cs : List Char) (esc : Escaped) (k r t : List Char),
      keyGo esc cs = .ok (k, r) → keyGo esc (cs ++ t) = .ok (k, r ++ t) := by
  intro cs
  induction cs with
  | nil => intro esc k r t h; exact absurd h (by simp [keyGo])
  | cons c rest ih =>
    intro esc k r t h
    rw [List.cons_append]
    by_cases hd : esc = .no ∧ (c = ' ' ∨ c = ',' ∨ c = '=')
    · obtain ⟨rfl, hc⟩ := hd
      rcases hc with rfl | rfl | rfl
      · rw [show keyGo Escaped.no (' ' :: rest) =
            .error .unescapedSpecialCharacter by simp [keyGo]] at h
        exact absurd h (by simp)
      · rw [show keyGo Escaped.no (',' :: rest) =
            .error .unescapedSpecialCharacter by simp [keyGo]] at h
        exact absurd h (by simp)
      · rw [keyGo_cons_eq] at h
        have h' : [] = k ∧ rest = r := by simpa using h
        obtain ⟨rfl, rfl⟩ := h'
        rw [keyGo_cons_eq]
    · rw [keyGo_cons_rec esc c rest hd] at h
      rw [keyGo_cons_rec esc c (rest ++ t) hd]
      rcases hr : keyGo (if esc = .no ∧ c = '\\' then .yes else .no) rest with
        e | ⟨k0, r0⟩ <;> rw [hr] at h <;> dsimp only at h
      · exact absurd h (by simp)
      · have h' : c :: k0 = k ∧ r0 = r := by simpa using h
        obtain ⟨rfl, rfl⟩ := h'
        rw [ih _ k0 r0 t hr]

theorem keyGo_rest_sublist :
    ∀ (cs : List Char) (esc : Escaped) (k r : List Char),
      keyGo esc cs = .ok (k, r) → r.Sublist cs ∧ r.length < cs.length := by
  intro cs
  induction cs with
  | nil => intro esc k r h; exact absurd h (by simp [keyGo])
  | cons c rest ih =>
    intro esc k r h
    by_cases hd : esc = .no ∧ (c = ' ' ∨ c = ',' ∨ c = '=')
    · obtain ⟨rfl, hc⟩ := hd
      rcases hc with rfl | rfl | rfl
      · rw [show keyGo Escaped.no (' ' :: rest) =
            .error .unescapedSpecialCharacter by simp [keyGo]] at h
        exact absurd h (by simp)
      · rw [show keyGo Escaped.no (',' :: rest) =
            .error .unescapedSpecialCharacter by simp [keyGo]] at h
        exact absurd h (by simp)
      · rw [keyGo_cons_eq] at h
        have h' : [] = k ∧ rest = r := by simpa using h
        obtain ⟨-, rfl⟩ := h'
        exact ⟨List.sublist_cons_self '=' rest, by simp⟩
    · rw [keyGo_cons_rec esc c rest hd] at h
      rcases hr : keyGo (if esc = .no ∧ c = '\\' then .yes else .no) rest with
        e | ⟨k0, r0⟩ <;> rw [hr] at h <;> dsimp only at h
      · exact absurd h (by simp)
      · have h' : c :: k0 = k ∧ r0 = r := by simpa using h
        obtain ⟨-, rfl⟩ := h'
        obtain ⟨hs, hl⟩ := ih _ k0 r0 hr
        exact ⟨hs.cons c, by simpa using Nat.lt_succ_of_lt hl⟩

theorem tagValueGo_cons_comma (rest : List Char) :
    tagValueGo .no (',' :: rest) = .ok ([], .tag rest) := by
  simp [tagValueGo]

theorem tagValueGo_cons_space (rest : List Char) :
    tagValueGo .no (' ' :: rest) = .ok ([], .fields rest) := by
  simp [tagValueGo]

theorem tagValueGo_cons_rec (esc : Escaped) (c : Char) (rest : List Char)
    (hne : ¬(esc = .no ∧ (c = ',' ∨ c = ' '))) :
    tagValueGo esc (c :: rest) =
      match tagValueGo (if c = '\\' then .yes else .no) rest with
      | .error e => .error e
      | .ok (v, tail) => .ok (c :: v, tail) := by
  conv_lhs => rw [tagValueGo]
  rw [if_neg (fun hcm => hne ⟨hcm.1, .inl hcm.2⟩),
    if_neg (fun hcm => hne ⟨hcm.1, .inr hcm.2⟩)]

theorem tagValueGo_append :
    ∀ (cs : List Char) (esc : Escaped) (v : List Char) (tl : TagTail)
      (t : List Char), tagValueGo esc cs = .ok (v, tl) →
      tagValueGo esc (cs ++ t) = .ok (v, tagTailApp tl t) := by
  intro cs
  induction cs with
  | nil => intro esc v tl t h; exact absurd h (by simp [tagValueGo])
  | cons c rest ih =>
    intro esc v tl t h
    rw [List.cons_append]
    by_cases hd : esc = .no ∧ (c = ',' ∨ c = ' ')
    · obtain ⟨rfl, hc⟩ := hd
      rcases hc with rfl | rfl
      · rw [tagValueGo_cons_comma] at h
        have h' : [] = v ∧ TagTail.tag rest = tl := by simpa using h
        obtain ⟨rfl, rfl⟩ := h'
        rw [tagValueGo_cons_comma]
        rfl
      · rw [tagValueGo_cons_space] at h
        have h' : [] = v ∧ TagTail.fields rest = tl := by simpa using h
        obtain ⟨rfl, rfl⟩ := h'
        rw [tagValueGo_cons_space]
        rfl
    · rw [tagValueGo_cons_rec esc c rest hd] at h
      rw [tagValueGo_cons_rec esc c (rest ++ t) hd]
      rcases hr : tagValueGo (if c = '\\' then .yes else .no) rest with
        e | ⟨v0, tl0⟩ <;> rw [hr] at h <;> dsimp only at h
      · exact absurd h (by simp)
      · have h' : c :: v0 = v ∧ tl0 = tl := by simpa using h
        obtain ⟨rfl, rfl⟩ := h'
        rw [ih _ v0 tl0 t hr]

theorem tagValueGo_rest_sublist :
    ∀ (cs : List Char) (esc : Escaped) (v r : List Char),
      (tagValueGo esc cs = .ok (v, .tag r) ∨
        tagValueGo esc cs = .ok (v, .fields r)) →
      r.Sublist cs ∧ r.length < cs.length := by
  intro cs
  induction cs with
  | nil =>
    intro esc v r h
    rcases h with h | h <;> exact absurd h (by simp [tagValueGo])
  | cons c rest ih =>
    intro esc v r h
    by_cases hd : esc = .no ∧ (c = ',' ∨ c = ' ')
    · obtain ⟨rfl, hc⟩ := hd
      rcases hc with rfl | rfl
      · rcases h with h | h <;> rw [tagValueGo_cons_comma] at h
        · have h' : v = [] ∧ rest = r := by simpa using h
          obtain ⟨-, rfl⟩ := h'
          exact ⟨List.sublist_cons_self ',' rest, by simp⟩
        · exact absurd h (by simp)
      · rcases h with h | h <;> rw [tagValueGo_cons_space] at h
        · exact absurd h (by simp)
        · have h' : v = [] ∧ rest = r := by simpa using h
          obtain ⟨-, rfl⟩ := h'
          exact ⟨List.sublist_cons_self ' ' rest, by simp⟩
    · rcases h with h | h <;> rw [tagValueGo_cons_rec esc c rest hd] at h <;>
        rcases hr : tagValueGo (if c = '\\' then .yes else .no) rest with
          e | ⟨v0, tl0⟩ <;> rw [hr] at h <;> dsimp only at h
      · exact absurd h (by simp)
      · have h' : c :: v0 = v ∧ tl0 = TagTail.tag r := by simpa using h
        obtain ⟨-, rfl⟩ := h'
        obtain ⟨hs, hl⟩ := ih _ v0 r (.inl hr)
        exact ⟨hs.cons c, by simpa using Nat.lt_succ_of_lt hl⟩
      · exact absurd h (by simp)
      · have h' : c :: v0 = v ∧ tl0 = TagTail.fields r := by simpa using h
        obtain ⟨-, rfl⟩ := h'
        obtain ⟨hs, hl⟩ := ih _ v0 r (.inr hr)
        exact ⟨hs.cons c, by simpa using Nat.lt_succ_of_lt hl⟩

theorem tagValueProcess_append (cs : List Char) (v : List Char) (tl : TagTail)
    (t : List Char) (h : tagValueProcess cs = .ok (v, tl)) :
    tagValueProcess (cs ++ t) = .ok (v, tagTailApp tl t) := by
  cases cs with
  | nil => exact absurd h (by simp [tagValueProcess])
  | cons c rest =>
    unfold tagValueProcess at h ⊢
    rw [List.cons_append]
    dsimp only at h ⊢
    by_cases hc : c = ',' ∨ c = ' '
    · rw [if_pos hc] at h
      exact absurd h (by simp)
    · rw [if_neg hc] at h ⊢
      rw [show c :: (rest ++ t) = (c :: rest) ++ t from rfl]
      exact tagValueGo_append (c :: rest) .no v tl t h

theorem tagValueProcess_rest_sublist (cs : List Char) (v r : List Char)
    (h : tagValueProcess cs = .ok (v, .tag r) ∨
      tagValueProcess cs = .ok (v, .fields r)) :
    r.Sublist cs ∧ r.length < cs.length := by
  cases cs with
  | nil =>
    rcases h with h | h <;> exact absurd h (by simp [tagValueProcess])
  | cons c rest =>
    unfold tagValueProcess at h
    dsimp only at h
    by_cases hc : c = ',' ∨ c = ' '
    · rw [if_pos hc] at h
      rcases h with h | h <;> exact absurd h (by simp)
    · rw [if_neg hc] at h
      exact tagValueGo_rest_sublist (c :: rest) .no v r h

theorem simpleValueGo_append_early :
    ∀ (cs : List Char) (first : Bool) (v : List Char) (tl : FieldTail)
      (t : List Char), simpleValueGo first cs = .ok (v, tl) → tl ≠ .none →
      simpleValueGo first (cs ++ t) = .ok (v, ftailApp tl t) := by
  intro cs
  induction cs with
  | nil =>
    intro first v tl t h htl
    have h' : [] = v ∧ FieldTail.none = tl := by simpa [simpleValueGo] using h
    exact absurd h'.2.symm htl
  | cons c rest ih =>
    intro first v tl t h htl
    rw [List.cons_append]
    unfold simpleValueGo at h ⊢
    by_cases h1 : c = '\\'
    · rw [if_pos h1] at h
      exact absurd h (by simp)
    · rw [if_neg h1] at h ⊢
      by_cases h2 : first = true ∧ (c = ' ' ∨ c = ',')
      · rw [if_pos h2] at h
        exact absurd h (by simp)
      · rw [if_neg h2] at h ⊢
        by_cases h3 : c = ' '
        · rw [if_pos h3] at h ⊢
          have h' : [] = v ∧ FieldTail.timestamp rest = tl := by simpa using h
          obtain ⟨rfl, rfl⟩ := h'
          rfl
        · rw [if_neg h3] at h ⊢
          by_cases h4 : c = ','
          · rw [if_pos h4] at h ⊢
            have h' : [] = v ∧ FieldTail.field rest = tl := by simpa using h
            obtain ⟨rfl, rfl⟩ := h'
            rfl
          · rw [if_neg h4] at h ⊢
            by_cases h5 : c = '\n'
            · rw [if_pos h5] at h
              have h' : [] = v ∧ FieldTail.none = tl := by simpa using h
              exact absurd h'.2.symm htl
            · rw [if_neg h5] at h ⊢
              rcases hr : simpleValueGo false rest with e | ⟨v0, tl0⟩ <;>
                rw [hr] at h <;> dsimp only at h
              · exact absurd h (by simp)
              · have h' : c :: v0 = v ∧ tl0 = tl := by simpa using h
                obtain ⟨rfl, rfl⟩ := h'
                rw [ih false v0 tl0 t hr htl]

theorem simpleValueGo_none_nl :
    ∀ (cs : List Char) (first : Bool) (v : List Char), '\n' ∉ cs →
      simpleValueGo first cs = .ok (v, .none) →
      v = cs ∧ simpleValueGo first (cs ++ ['\n']) = .ok (cs, .none) := by
  intro cs
  induction cs with
  | nil =>
    intro first v hnl h
    have h' : [] = v ∧ FieldTail.none = FieldTail.none := by
      simpa [simpleValueGo] using h
    refine ⟨h'.1.symm, ?_⟩
    simp [simpleValueGo]
  | cons c rest ih =>
    intro first v hnl h
    have hcnl : ¬c = '\n' := fun hc => hnl (by simp [hc])
    have hrnl : '\n' ∉ rest := fun hm => hnl (by simp [hm])
    rw [List.cons_append]
    unfold simpleValueGo at h ⊢
    by_cases h1 : c = '\\'
    · rw [if_pos h1] at h
      exact absurd h (by simp)
    · rw [if_neg h1] at h ⊢
      by_cases h2 : first = true ∧ (c = ' ' ∨ c = ',')
      · rw [if_pos h2] at h
        exact absurd h (by simp)
      · rw [if_neg h2] at h ⊢
        by_cases h3 : c = ' '
        · rw [if_pos h3] at h
          exact absurd h (by simp)
        · rw [if_neg h3] at h ⊢
          by_cases h4 : c = ','
          · rw [if_pos h4] at h
            exact absurd h (by simp)
          · rw [if_neg h4] at h ⊢
            rw [if_neg hcnl] at h ⊢
            rcases hr : simpleValueGo false rest with e | ⟨v0, tl0⟩ <;>
              rw [hr] at h <;> dsimp only at h
            · exact absurd h (by simp)
            · have h' : c :: v0 = v ∧ tl0 = FieldTail.none := by simpa using h
              obtain ⟨rfl, rfl⟩ := h'
              obtain ⟨rfl, happ⟩ := ih false v0 hrnl hr
              rw [happ]
              exact ⟨rfl, rfl⟩

theorem stringValueGo_cons_error (st : StrState) (esc : Escaped) (c : Char)
    (rest : List Char) (e : LineError) (h : strConsumeChar st esc c = .error e) :
    stringValueGo st esc (c :: rest) = .error e := by
  conv_lhs => rw [stringValueGo]
  rw [h]

theorem stringValueGo_cons_next (st : StrState) (esc : Escaped) (c : Char)
    (rest : List Char) (h : strConsumeChar st esc c = .ok .toNextField) :
    stringValueGo st esc (c :: rest) = .ok ([], .field rest) := by
  conv_lhs => rw [stringValueGo]
  rw [h]

theorem stringValueGo_cons_ts (st : StrState) (esc : Escaped) (c : Char)
    (rest : List Char) (h : strConsumeChar st esc c = .ok .toTimestamp) :
    stringValueGo st esc (c :: rest) = .ok ([], .timestamp rest) := by
  conv_lhs => rw [stringValueGo]
  rw [h]

theorem stringValueGo_cons_step (st : StrState) (esc : Escaped) (c : Char)
    (rest : List Char) (st' : StrState) (esc' : Escaped)
    (h : strConsumeChar st esc c = .ok (.continue_ st' esc')) :
    stringValueGo st esc (c :: rest) =
      match stringValueGo st' esc' rest with
      | .error e => .error e
      | .ok (v, tail) => .ok (c :: v, tail) := by
  conv_lhs => rw [stringValueGo]
  rw [h]

theorem stringValueGo_append_early :
    ∀ (cs : List Char) (st : StrState) (esc : Escaped) (v : List Char)
      (tl : FieldTail) (t : List Char), stringValueGo st esc cs = .ok (v, tl) →
      tl ≠ .none → stringValueGo st esc (cs ++ t) = .ok (v, ftailApp tl t) := by
  intro cs
  induction cs with
  | nil =>
    intro st esc v tl t h htl
    cases st <;> simp [stringValueGo] at h
    exact absurd h.2.symm htl
  | cons c rest ih =>
    intro st esc v tl t h htl
    rw [List.cons_append]
    rcases hc : strConsumeChar st esc c with e | step
    · rw [stringValueGo_cons_error st esc c rest e hc] at h
      exact absurd h (by simp)
    · cases step with
      | toNextField =>
        rw [stringValueGo_cons_next st esc c rest hc] at h
        have h' : [] = v ∧ FieldTail.field rest = tl := by simpa using h
        obtain ⟨rfl, rfl⟩ := h'
        rw [stringValueGo_cons_next st esc c (rest ++ t) hc]
        rfl
      | toTimestamp =>
        rw [stringValueGo_cons_ts st esc c rest hc] at h
        have h' : [] = v ∧ FieldTail.timestamp rest = tl := by simpa using h
        obtain ⟨rfl, rfl⟩ := h'
        rw [stringValueGo_cons_ts st esc c (rest ++ t) hc]
        rfl
      | continue_ st' esc' =>
        rw [stringValueGo_cons_step st esc c rest st' esc' hc] at h
        rcases hr : stringValueGo st' esc' rest with e | ⟨v0, tl0⟩ <;>
          rw [hr] at h <;> dsimp only at h
        · exact absurd h (by simp)
        · have h' : c :: v0 = v ∧ tl0 = tl := by simpa using h
          obtain ⟨rfl, rfl⟩ := h'
          rw [stringValueGo_cons_step st esc c (rest ++ t) st' esc' hc,
            ih st' esc' v0 tl0 t hr htl]

theorem stringValueProcess_head (cs v : List Char) (tl : FieldTail)
    (h : stringValueProcess cs = .ok (v, tl)) : v.head? = some '"' := by
  cases cs with
  | nil => exact absurd h (by simp [stringValueProcess, stringValueGo])
  | cons c rest =>
    unfold stringValueProcess at h
    by_cases hc : c = '"'
    · rw [stringValueGo_cons_step .start .no c rest .leftQuote .no
        (by simp [strConsumeChar, hc])] at h
      rcases hr : stringValueGo .leftQuote .no rest with e | ⟨v0, tl0⟩ <;>
        rw [hr] at h <;> dsimp only at h
      · exact absurd h (by simp)
      · have h' : c :: v0 = v ∧ tl0 = tl := by simpa using h
        obtain ⟨rfl, -⟩ := h'
        simp [hc]
    · rw [stringValueGo_cons_error .start .no c rest .noQuoteDelimiter
        (by simp [strConsumeChar, hc])] at h
      exact absurd h (by simp)

theorem simpleValueGo_rest_sublist :
    ∀ (cs : List Char) (first : Bool) (v r : List Char),
      (simpleValueGo first cs = .ok (v, .field r) ∨
        simpleValueGo first cs = .ok (v, .timestamp r)) →
      r.Sublist cs ∧ r.length < cs.length := by
  intro cs
  induction cs with
  | nil =>
    intro first v r h
    rcases h with h | h <;> simp [simpleValueGo] at h
  | cons c rest ih =>
    intro first v r h
    have hsplit : ∀ (tl : FieldTail), simpleValueGo first (c :: rest) = .ok (v, tl) →
        (c = ' ' ∧ v = [] ∧ tl = .timestamp rest) ∨
        (c = ',' ∧ v = [] ∧ tl = .field rest) ∨
        (c = '\n' ∧ v = [] ∧ tl = .none) ∨
        (∃ v0, v = c :: v0 ∧ simpleValueGo false rest = .ok (v0, tl)) := by
      intro tl h'
      unfold simpleValueGo at h'
      by_cases h1 : c = '\\'
      · rw [if_pos h1] at h'
        exact absurd h' (by simp)
      · rw [if_neg h1] at h'
        by_cases h2 : first = true ∧ (c = ' ' ∨ c = ',')
        · rw [if_pos h2] at h'
          exact absurd h' (by simp)
        · rw [if_neg h2] at h'
          by_cases h3 : c = ' '
          · rw [if_pos h3] at h'
            have h'' : [] = v ∧ FieldTail.timestamp rest = tl := by simpa using h'
            exact .inl ⟨h3, h''.1.symm, h''.2.symm⟩
          · rw [if_neg h3] at h'
            by_cases h4 : c = ','
            · rw [if_pos h4] at h'
              have h'' : [] = v ∧ FieldTail.field rest = tl := by simpa using h'
              exact .inr (.inl ⟨h4, h''.1.symm, h''.2.symm⟩)
            · rw [if_neg h4] at h'
              by_cases h5 : c = '\n'
              · rw [if_pos h5] at h'
                have h'' : [] = v ∧ FieldTail.none = tl := by simpa using h'
                exact .inr (.inr (.inl ⟨h5, h''.1.symm, h''.2.symm⟩))
              · rw [if_neg h5] at h'
                rcases hr : simpleValueGo false rest with e | ⟨v0, tl0⟩ <;>
                  rw [hr] at h' <;> dsimp only at h'
                · exact absurd h' (by simp)
                · have h'' : c :: v0 = v ∧ tl0 = tl := by simpa using h'
                  exact .inr (.inr (.inr ⟨v0, h''.1.symm, by rw [h''.2]⟩))
    rcases h with h | h
    · rcases hsplit _ h with ⟨-, -, htl⟩ | ⟨-, -, htl⟩ | ⟨-, -, htl⟩ | ⟨v0, -, hrec⟩
      · exact absurd htl (by simp)
      · injection htl with hre
        subst hre
        exact ⟨List.sublist_cons_self c r, by simp⟩
      · exact absurd htl (by simp)
      · obtain ⟨hs, hl⟩ := ih false v0 r (.inl hrec)
        exact ⟨hs.cons c, by simpa using Nat.lt_succ_of_lt hl⟩
    · rcases hsplit _ h with ⟨-, -, htl⟩ | ⟨-, -, htl⟩ | ⟨-, -, htl⟩ | ⟨v0, -, hrec⟩
      · injection htl with hre
        subst hre
        exact ⟨List.sublist_cons_self c r, by simp⟩
      · exact absurd htl (by simp)
      · exact absurd htl (by simp)
      · obtain ⟨hs, hl⟩ := ih false v0 r (.inr hrec)
        exact ⟨hs.cons c, by simpa using Nat.lt_succ_of_lt hl⟩

theorem stringValueGo_rest_sublist :
    ∀ (cs : List Char) (st : StrState) (esc : Escaped) (v r : List Char),
      (stringValueGo st esc cs = .ok (v, .field r) ∨
        stringValueGo st esc cs = .ok (v, .timestamp r)) →
      r.Sublist cs ∧ r.length < cs.length := by
  intro cs
  induction cs with
  | nil =>
    intro st esc v r h
    rcases h with h | h <;> cases st <;> simp [stringValueGo] at h
  | cons c rest ih =>
    intro st esc v r h
    rcases hc : strConsumeChar st esc c with e | step
    · rcases h with h | h <;>
        rw [stringValueGo_cons_error st esc c rest e hc] at h <;>
        exact absurd h (by simp)
    · cases step with
      | toNextField =>
        rcases h with h | h <;> rw [stringValueGo_cons_next st esc c rest hc] at h
        · have h' : [] = v ∧ rest = r := by simpa using h
          obtain ⟨-, rfl⟩ := h'
          exact ⟨List.sublist_cons_self c rest, by simp⟩
        · exact absurd h (by simp)
      | toTimestamp =>
        rcases h with h | h <;> rw [stringValueGo_cons_ts st esc c rest hc] at h
        · exact absurd h (by simp)
        · have h' : [] = v ∧ rest = r := by simpa using h
          obtain ⟨-, rfl⟩ := h'
          exact ⟨List.sublist_cons_self c rest, by simp⟩
      | continue_ st' esc' =>
        rcases h with h | h <;>
          rw [stringValueGo_cons_step st esc c rest st' esc' hc] at h <;>
          rcases hr : stringValueGo st' esc' rest with e | ⟨v0, tl0⟩ <;>
            rw [hr] at h <;> dsimp only at h
        · exact absurd h (by simp)
        · have h' : c :: v0 = v ∧ tl0 = FieldTail.field r := by simpa using h
          obtain ⟨-, rfl⟩ := h'
          obtain ⟨hs, hl⟩ := ih st' esc' v0 r (.inl hr)
          exact ⟨hs.cons c, by simpa using Nat.lt_succ_of_lt hl⟩
        · exact absurd h (by simp)
        · have h' : c :: v0 = v ∧ tl0 = FieldTail.timestamp r := by simpa using h
          obtain ⟨-, rfl⟩ := h'
          obtain ⟨hs, hl⟩ := ih st' esc' v0 r (.inr hr)
          exact ⟨hs.cons c, by simpa using Nat.lt_succ_of_lt hl⟩

theorem fieldValueProcess_cons (c : Char) (rest : List Char) :
    fieldValueProcess (c :: rest) =
      if c = '"' then stringValueProcess (c :: rest)
      else simpleValueProcess (c :: rest) := rfl

theorem fieldValueProcess_append_early (cs v : List Char) (tl : FieldTail)
    (t : List Char) (h : fieldValueProcess cs = .ok (v, tl)) (htl : tl ≠ .none) :
    fieldValueProcess (cs ++ t) = .ok (v, ftailApp tl t) := by
  cases cs with
  | nil => exact absurd h (by simp [fieldValueProcess])
  | cons c rest =>
    rw [fieldValueProcess_cons] at h
    rw [List.cons_append, fieldValueProcess_cons]
    by_cases hc : c = '"'
    · rw [if_pos hc] at h ⊢
      unfold stringValueProcess at h ⊢
      rw [show c :: (rest ++ t) = (c :: rest) ++ t from rfl]
      exact stringValueGo_append_early (c :: rest) .start .no v tl t h htl
    · rw [if_neg hc] at h ⊢
      unfold simpleValueProcess at h ⊢
      rw [show c :: (rest ++ t) = (c :: rest) ++ t from rfl]
      exact simpleValueGo_append_early (c :: rest) true v tl t h htl

theorem fieldValueProcess_none_nl (cs v : List Char) (hnl : '\n' ∉ cs)
    (h : fieldValueProcess cs = .ok (v, .none)) (hv : v.head? ≠ some '"') :
    fieldValueProcess (cs ++ ['\n']) = .ok (v, .none) := by
  cases cs with
  | nil => exact absurd h (by simp [fieldValueProcess])
  | cons c rest =>
    rw [fieldValueProcess_cons] at h
    rw [List.cons_append, fieldValueProcess_cons]
    by_cases hc : c = '"'
    · rw [if_pos hc] at h
      exact absurd (stringValueProcess_head (c :: rest) v .none h) hv
    · rw [if_neg hc] at h ⊢
      unfold simpleValueProcess at h ⊢
      rw [show c :: (rest ++ ['\n']) = (c :: rest) ++ ['\n'] from rfl]
      obtain ⟨rfl, happ⟩ := simpleValueGo_none_nl (c :: rest) true v hnl h
      exact happ

theorem fieldValueProcess_rest_sublist (cs v r : List Char)
    (h : fieldValueProcess cs = .ok (v, .field r) ∨
      fieldValueProcess cs = .ok (v, .timestamp r)) :
    r.Sublist cs ∧ r.length < cs.length := by
  cases cs with
  | nil => rcases h with h | h <;> exact absurd h (by simp [fieldValueProcess])
  | cons c rest =>
    rw [fieldValueProcess_cons] at h
    by_cases hc : c = '"'
    · rw [if_pos hc] at h
      exact stringValueGo_rest_sublist (c :: rest) .start .no v r h
    · rw [if_neg hc] at h
      exact simpleValueGo_rest_sublist (c :: rest) true v r h

theorem fieldProcess_append_early (cs : List Char) (p : RawPair) (tl : FieldTail)
    (t : List Char) (h : fieldProcess cs = .ok (p, tl)) (htl : tl ≠ .none) :
    fieldProcess (cs ++ t) = .ok (p, ftailApp tl t) := by
  unfold fieldProcess keyProcess at h ⊢
  rcases hk : keyGo .no cs with e | ⟨k, vt⟩ <;> rw [hk] at h <;> dsimp only at h
  · exact absurd h (by simp)
  · rw [keyGo_append cs .no k vt t hk]
    dsimp only
    rcases hv : fieldValueProcess vt with e | ⟨v, tl0⟩ <;> rw [hv] at h <;>
      dsimp only at h
    · exact absurd h (by simp)
    · have h' : RawPair.mk k v = p ∧ tl0 = tl := by simpa using h
      obtain ⟨rfl, rfl⟩ := h'
      rw [fieldValueProcess_append_early vt v tl0 t hv htl]

theorem fieldProcess_none_nl (cs : List Char) (p : RawPair) (hnl : '\n' ∉ cs)
    (h : fieldProcess cs = .ok (p, .none)) (hp : p.value.head? ≠ some '"') :
    fieldProcess (cs ++ ['\n']) = .ok (p, .none) := by
  unfold fieldProcess keyProcess at h ⊢
  rcases hk : keyGo .no cs with e | ⟨k, vt⟩ <;> rw [hk] at h <;> dsimp only at h
  · exact absurd h (by simp)
  · rw [keyGo_append cs .no k vt ['\n'] hk]
    dsimp only
    rcases hv : fieldValueProcess vt with e | ⟨v, tl0⟩ <;> rw [hv] at h <;>
      dsimp only at h
    · exact absurd h (by simp)
    · have h' : RawPair.mk k v = p ∧ tl0 = FieldTail.none := by simpa using h
      obtain ⟨rfl, rfl⟩ := h'
      have hvtnl : '\n' ∉ vt :=
        fun hm => hnl ((keyGo_rest_sublist cs .no k vt hk).1.subset hm)
      rw [fieldValueProcess_none_nl vt v hvtnl hv hp]

theorem fieldProcess_field_rest (cs : List Char) (p : RawPair) (r : List Char)
    (h : fieldProcess cs = .ok (p, .field r)) :
    r.Sublist cs ∧ r.length < cs.length := by
  unfold fieldProcess keyProcess at h
  rcases hk : keyGo .no cs with e | ⟨k, vt⟩ <;> rw [hk] at h <;> dsimp only at h
  · exact absurd h (by simp)
  · rcases hv : fieldValueProcess vt with e | ⟨v, tl0⟩ <;> rw [hv] at h <;>
      dsimp only at h
    · exact absurd h (by simp)
    · have h' : RawPair.mk k v = p ∧ tl0 = FieldTail.field r := by simpa using h
      obtain ⟨-, rfl⟩ := h'
      obtain ⟨hs1, hl1⟩ := keyGo_rest_sublist cs .no k vt hk
      obtain ⟨hs2, hl2⟩ := fieldValueProcess_rest_sublist vt v r (.inl hv)
      exact ⟨hs2.trans hs1, hl2.trans hl1⟩

theorem tagProcess_append (cs : List Char) (p : RawPair) (tl : TagTail)
    (t : List Char) (h : tagProcess cs = .ok (p, tl)) :
    tagProcess (cs ++ t) = .ok (p, tagTailApp tl t) := by
  unfold tagProcess keyProcess at h ⊢
  rcases hk : keyGo .no cs with e | ⟨k, vt⟩ <;> rw [hk] at h <;> dsimp only at h
  · exact absurd h (by simp)
  · rw [keyGo_append cs .no k vt t hk]
    dsimp only
    rcases hv : tagValueProcess vt with e | ⟨v, tl0⟩ <;> rw [hv] at h <;>
      dsimp only at h
    · exact absurd h (by simp)
    · have h' : RawPair.mk k v = p ∧ tl0 = tl := by simpa using h
      obtain ⟨rfl, rfl⟩ := h'
      rw [tagValueProcess_append vt v tl0 t hv]

theorem tagProcess_rest_sublist (cs : List Char) (p : RawPair) (r : List Char)
    (h : tagProcess cs = .ok (p, .tag r) ∨ tagProcess cs = .ok (p, .fields r)) :
    r.Sublist cs ∧ r.length < cs.length := by
  unfold tagProcess keyProcess at h
  rcases hk : keyGo .no cs with e | ⟨k, vt⟩ <;> rw [hk] at h <;>
    [skip; dsimp only at h]
  · rcases h with h | h <;> exact absurd h (by simp)
  · rcases hv : tagValueProcess vt with e | ⟨v, tl0⟩ <;> rw [hv] at h <;>
      [skip; dsimp only at h]
    · rcases h with h | h <;> exact absurd h (by simp)
    · obtain ⟨hs1, hl1⟩ := keyGo_rest_sublist cs .no k vt hk
      rcases h with h | h
      · have h' : RawPair.mk k v = p ∧ tl0 = TagTail.tag r := by simpa using h
        obtain ⟨-, rfl⟩ := h'
        obtain ⟨hs2, hl2⟩ := tagValueProcess_rest_sublist vt v r (.inl hv)
        exact ⟨hs2.trans hs1, hl2.trans hl1⟩
      · have h' : RawPair.mk k v = p ∧ tl0 = TagTail.fields r := by simpa using h
        obtain ⟨-, rfl⟩ := h'
        obtain ⟨hs2, hl2⟩ := tagValueProcess_rest_sublist vt v r (.inr hv)
        exact ⟨hs2.trans hs1, hl2.trans hl1⟩

theorem parseTagsAux_succ_error (fuel : Nat) (line : List Char) (e : LineError)
    (h : tagProcess line = .error e) :
    parseTagsAux (fuel + 1) line = .error e := by
  conv_lhs => rw [parseTagsAux]
  rw [h]

theorem parseTagsAux_succ_tag (fuel : Nat) (line : List Char) (p : RawPair)
    (r : List Char) (h : tagProcess line = .ok (p, .tag r)) :
    parseTagsAux (fuel + 1) line =
      match parseTagsAux fuel r with
      | .error e => .error e
      | .ok (pairs, fieldsTail) => .ok (p :: pairs, fieldsTail) := by
  conv_lhs => rw [parseTagsAux]
  rw [h]

theorem parseTagsAux_succ_fields (fuel : Nat) (line : List Char) (p : RawPair)
    (f : List Char) (h : tagProcess line = .ok (p, .fields f)) :
    parseTagsAux (fuel + 1) line = .ok ([p], f) := by
  conv_lhs => rw [parseTagsAux]
  rw [h]

theorem parseFieldsAux_succ_error (fuel : Nat) (line : List Char) (e : LineError)
    (h : fieldProcess line = .error e) :
    parseFieldsAux (fuel + 1) line = .error e := by
  conv_lhs => rw [parseFieldsAux]
  rw [h]

theorem parseFieldsAux_succ_field (fuel : Nat) (line : List Char) (p : RawPair)
    (r : List Char) (h : fieldProcess line = .ok (p, .field r)) :
    parseFieldsAux (fuel + 1) line =
      match parseFieldsAux fuel r with
      | .error e => .error e
      | .ok (pairs, timestamp) => .ok (p :: pairs, timestamp) := by
  conv_lhs => rw [parseFieldsAux]
  rw [h]

theorem parseFieldsAux_succ_ts (fuel : Nat) (line : List Char) (p : RawPair)
    (ts : List Char) (h : fieldProcess line = .ok (p, .timestamp ts)) :
    parseFieldsAux (fuel + 1) line = .ok ([p], some ts) := by
  conv_lhs => rw [parseFieldsAux]
  rw [h]

theorem parseFieldsAux_succ_none (fuel : Nat) (line : List Char) (p : RawPair)
    (h : fieldProcess line = .ok (p, .none)) :
    parseFieldsAux (fuel + 1) line = .ok ([p], none) := by
  conv_lhs => rw [parseFieldsAux]
  rw [h]

theorem parseTagsAux_append :
    ∀ (fuel fuel' : Nat) (cs : List Char) (ps : List RawPair) (ft t : List Char),
      fuel ≤ fuel' → parseTagsAux fuel cs = .ok (ps, ft) →
      parseTagsAux fuel' (cs ++ t) = .ok (ps, ft ++ t) := by
  intro fuel
  induction fuel with
  | zero => intro fuel' cs ps ft t _ h; exact absurd h (by simp [parseTagsAux])
  | succ fuel ih =>
    intro fuel' cs ps ft t hle h
    obtain ⟨fuel'', rfl⟩ : ∃ n, fuel' = n + 1 :=
      ⟨fuel' - 1, by omega⟩
    rcases htp : tagProcess cs with e | ⟨p, tl⟩
    · rw [parseTagsAux_succ_error fuel cs e htp] at h
      exact absurd h (by simp)
    · cases tl with
      | tag r =>
        rw [parseTagsAux_succ_tag fuel cs p r htp] at h
        rcases hrec : parseTagsAux fuel r with e | ⟨ps0, ft0⟩ <;>
          rw [hrec] at h <;> dsimp only at h
        · exact absurd h (by simp)
        · have h' : p :: ps0 = ps ∧ ft0 = ft := by simpa using h
          obtain ⟨rfl, rfl⟩ := h'
          have happ := tagProcess_append cs p (.tag r) t htp
          rw [parseTagsAux_succ_tag fuel'' (cs ++ t) p (r ++ t) happ,
            ih fuel'' r ps0 ft0 t (by omega) hrec]
      | fields f =>
        rw [parseTagsAux_succ_fields fuel cs p f htp] at h
        have h' : [p] = ps ∧ f = ft := by simpa using h
        obtain ⟨rfl, rfl⟩ := h'
        have happ := tagProcess_append cs p (.fields f) t htp
        exact parseTagsAux_succ_fields fuel'' (cs ++ t) p (f ++ t) happ

theorem parseTagsAux_rest_sublist :
    ∀ (fuel : Nat) (cs : List Char) (ps : List RawPair) (ft : List Char),
      parseTagsAux fuel cs = .ok (ps, ft) → ft.Sublist cs := by
  intro fuel
  induction fuel with
  | zero => intro cs ps ft h; exact absurd h (by simp [parseTagsAux])
  | succ fuel ih =>
    intro cs ps ft h
    rcases htp : tagProcess cs with e | ⟨p, tl⟩
    · rw [parseTagsAux_succ_error fuel cs e htp] at h
      exact absurd h (by simp)
    · cases tl with
      | tag r =>
        rw [parseTagsAux_succ_tag fuel cs p r htp] at h
        rcases hrec : parseTagsAux fuel r with e | ⟨ps0, ft0⟩ <;>
          rw [hrec] at h <;> dsimp only at h
        · exact absurd h (by simp)
        · have h' : p :: ps0 = ps ∧ ft0 = ft := by simpa using h
          obtain ⟨-, rfl⟩ := h'
          exact (ih r ps0 ft0 hrec).trans
            (tagProcess_rest_sublist cs p r (.inl htp)).1
      | fields f =>
        rw [parseTagsAux_succ_fields fuel cs p f htp] at h
        have h' : [p] = ps ∧ f = ft := by simpa using h
        obtain ⟨-, rfl⟩ := h'
        exact (tagProcess_rest_sublist cs p f (.inr htp)).1

theorem parseFieldsAux_ne_nil :
    ∀ (fuel : Nat) (cs : List Char) (ps : List RawPair) (ts : Option (List Char)),
      parseFieldsAux fuel cs = .ok (ps, ts) → ps ≠ [] := by
  intro fuel
  induction fuel with
  | zero => intro cs ps ts h; exact absurd h (by simp [parseFieldsAux])
  | succ fuel ih =>
    intro cs ps ts h
    rcases hfp : fieldProcess cs with e | ⟨p, tl⟩
    · rw [parseFieldsAux_succ_error fuel cs e hfp] at h
      exact absurd h (by simp)
    · cases tl with
      | field r =>
        rw [parseFieldsAux_succ_field fuel cs p r hfp] at h
        rcases hrec : parseFieldsAux fuel r with e | ⟨ps0, ts0⟩ <;>
          rw [hrec] at h <;> dsimp only at h
        · exact absurd h (by simp)
        · have h' : p :: ps0 = ps ∧ ts0 = ts := by simpa using h
          obtain ⟨rfl, -⟩ := h'
          simp
      | timestamp t0 =>
        rw [parseFieldsAux_succ_ts fuel cs p t0 hfp] at h
        have h' : [p] = ps ∧ some t0 = ts := by simpa using h
        obtain ⟨rfl, -⟩ := h'
        simp
      | none =>
        rw [parseFieldsAux_succ_none fuel cs p hfp] at h
        have h' : [p] = ps ∧ (none : Option (List Char)) = ts := by simpa using h
        obtain ⟨rfl, -⟩ := h'
        simp

theorem parseFieldsAux_append_nl :
    ∀ (fuel fuel' : Nat) (cs : List Char) (ps : List RawPair),
      fuel ≤ fuel' → '\n' ∉ cs → parseFieldsAux fuel cs = .ok (ps, none) →
      (∀ p ∈ ps.getLast?, p.value.head? ≠ some '"') →
      parseFieldsAux fuel' (cs ++ ['\n']) = .ok (ps, none) := by
  intro fuel
  induction fuel with
  | zero => intro fuel' cs ps _ _ h _; exact absurd h (by simp [parseFieldsAux])
  | succ fuel ih =>
    intro fuel' cs ps hle hnl h hbare
    obtain ⟨fuel'', rfl⟩ : ∃ n, fuel' = n + 1 := ⟨fuel' - 1, by omega⟩
    rcases hfp : fieldProcess cs with e | ⟨p, tl⟩
    · rw [parseFieldsAux_succ_error fuel cs e hfp] at h
      exact absurd h (by simp)
    · cases tl with
      | field r =>
        rw [parseFieldsAux_succ_field fuel cs p r hfp] at h
        rcases hrec : parseFieldsAux fuel r with e | ⟨ps0, ts0⟩ <;>
          rw [hrec] at h <;> dsimp only at h
        · exact absurd h (by simp)
        · have h' : p :: ps0 = ps ∧ ts0 = none := by simpa using h
          obtain ⟨rfl, rfl⟩ := h'
          have hps0 : ps0 ≠ [] := parseFieldsAux_ne_nil fuel r ps0 none hrec
          have hbare0 : ∀ q ∈ ps0.getLast?, q.value.head? ≠ some '"' := by
            intro q hq
            refine hbare q ?_
            rcases ps0 with - | ⟨p1, ps1⟩
            · exact absurd rfl hps0
            · simpa [List.getLast?] using hq
          have hrnl : '\n' ∉ r :=
            fun hm => hnl ((fieldProcess_field_rest cs p r hfp).1.subset hm)
          have happ := fieldProcess_append_early cs p (.field r) ['\n'] hfp
            (by simp)
          rw [parseFieldsAux_succ_field fuel'' (cs ++ ['\n']) p (r ++ ['\n'])
            happ, ih fuel'' r ps0 (by omega) hrnl hrec hbare0]
      | timestamp t0 =>
        rw [parseFieldsAux_succ_ts fuel cs p t0 hfp] at h
        exact absurd h (by simp)
      | none =>
        rw [parseFieldsAux_succ_none fuel cs p hfp] at h
        have h' : [p] = ps ∧ True := by simpa using h
        obtain ⟨rfl, -⟩ := h'
        have hp : p.value.head? ≠ some '"' := hbare p (by simp)
        have happ := fieldProcess_none_nl cs p hnl hfp hp
        exact parseFieldsAux_succ_none fuel'' (cs ++ ['\n']) p happ

/-- Fuel fidelity for the tag loop: any two fuels above the input length
give the same result, so `parseTags`'s choice of `length + 1` models the
unbounded Rust loop (each iteration consumes at least the `=` delimiter). -/
theorem parseTagsAux_congr :
    ∀ (f1 f2 : Nat) (cs : List Char), cs.length < f1 → cs.length < f2 →
      parseTagsAux f1 cs = parseTagsAux f2 cs := by
  intro f1
  induction f1 with
  | zero => intro f2 cs h1 _; exact absurd h1 (by omega)
  | succ f1 ih =>
    intro f2 cs h1 h2
    obtain ⟨f2', rfl⟩ : ∃ n, f2 = n + 1 := ⟨f2 - 1, by omega⟩
    rcases htp : tagProcess cs with e | ⟨p, tl⟩
    · rw [parseTagsAux_succ_error f1 cs e htp,
        parseTagsAux_succ_error f2' cs e htp]
    · cases tl with
      | tag r =>
        obtain ⟨-, hlen⟩ := tagProcess_rest_sublist cs p r (.inl htp)
        rw [parseTagsAux_succ_tag f1 cs p r htp,
          parseTagsAux_succ_tag f2' cs p r htp,
          ih f2' r (by omega) (by omega)]
      | fields f =>
        rw [parseTagsAux_succ_fields f1 cs p f htp,
          parseTagsAux_succ_fields f2' cs p f htp]

/-- Fuel fidelity for the field loop, as for `parseTagsAux_congr`. -/
theorem parseFieldsAux_congr :
    ∀ (f1 f2 : Nat) (cs : List Char), cs.length < f1 → cs.length < f2 →
      parseFieldsAux f1 cs = parseFieldsAux f2 cs := by
  intro f1
  induction f1 with
  | zero => intro f2 cs h1 _; exact absurd h1 (by omega)
  | succ f1 ih =>
    intro f2 cs h1 h2
    obtain ⟨f2', rfl⟩ : ∃ n, f2 = n + 1 := ⟨f2 - 1, by omega⟩
    rcases hfp : fieldProcess cs with e | ⟨p, tl⟩
    · rw [parseFieldsAux_succ_error f1 cs e hfp,
        parseFieldsAux_succ_error f2' cs e hfp]
    · cases tl with
      | field r =>
        obtain ⟨-, hlen⟩ := fieldProcess_field_rest cs p r hfp
        rw [parseFieldsAux_succ_field f1 cs p r hfp,
          parseFieldsAux_succ_field f2' cs p r hfp,
          ih f2' r (by omega) (by omega)]
      | timestamp t0 =>
        rw [parseFieldsAux_succ_ts f1 cs p t0 hfp,
          parseFieldsAux_succ_ts f2' cs p t0 hfp]
      | none =>
        rw [parseFieldsAux_succ_none f1 cs p hfp,
          parseFieldsAux_succ_none f2' cs p hfp]

theorem measurementProcess_tail_sublist (s : List Char) (m r : List Char)
    (h : measurementProcess s = .ok (m, .tags r) ∨
      measurementProcess s = .ok (m, .fields r)) : r.Sublist s := by
  cases s with
  | nil => rcases h with h | h <;> exact absurd h (by simp [measurementProcess])
  | cons c rest =>
    unfold measurementProcess at h
    dsimp only at h
    by_cases hc : c = ',' ∨ c = ' '
    · rw [if_pos hc] at h
      rcases h with h | h <;> exact absurd h (by simp)
    · rw [if_neg hc] at h
      exact measurementGo_tail_sublist (c :: rest) .no m r h

theorem rawLineParse_append_nl (s : List Char) (raw : RawLine)
    (hnl : '\n' ∉ s) (h : rawLineParse s = .ok raw)
    (hts : raw.timestamp = none)
    (hbare : ∀ p ∈ raw.fields.getLast?, p.value.head? ≠ some '"') :
    rawLineParse (s ++ ['\n']) = .ok raw := by
  unfold rawLineParse at h ⊢
  rcases hm : measurementProcess s with e | ⟨meas, mtl⟩ <;> rw [hm] at h <;>
    dsimp only at h
  · exact absurd h (by simp)
  · rw [measurementProcess_append s meas mtl ['\n'] hm]
    cases mtl with
    | tags tt =>
      dsimp only [mtailApp] at *
      rcases hpt : parseTags tt with e | ⟨tags, ft⟩ <;> rw [hpt] at h <;>
        dsimp only at h
      · exact absurd h (by simp)
      · have hpt' : parseTags (tt ++ ['\n']) = .ok (tags, ft ++ ['\n']) := by
          unfold parseTags at hpt ⊢
          rw [show (tt ++ ['\n']).length + 1 = (tt.length + 1) + 1 by simp]
          exact parseTagsAux_append (tt.length + 1) (tt.length + 1 + 1) tt tags
            ft ['\n'] (by omega) hpt
        rw [hpt']
        dsimp only
        rcases hpf : parseFields ft with e | ⟨fields, ts⟩ <;> rw [hpf] at h <;>
          dsimp only at h
        · exact absurd h (by simp)
        · have hraw : RawLine.mk meas tags fields ts = raw := by simpa using h
          subst hraw
          simp only at hts hbare
          subst hts
          have hfts : ft.Sublist s := by
            have h1 : ft.Sublist tt := by
              unfold parseTags at hpt
              exact parseTagsAux_rest_sublist (tt.length + 1) tt tags ft hpt
            exact h1.trans
              (measurementProcess_tail_sublist s meas tt (.inl hm))
          have hftnl : '\n' ∉ ft := fun hm' => hnl (hfts.subset hm')
          have hpf' : parseFields (ft ++ ['\n']) = .ok (fields, none) := by
            unfold parseFields at hpf ⊢
            rw [show (ft ++ ['\n']).length + 1 = (ft.length + 1) + 1 by simp]
            exact parseFieldsAux_append_nl (ft.length + 1) (ft.length + 1 + 1)
              ft fields (by omega) hftnl hpf hbare
          rw [hpf']
    | fields ftl =>
      dsimp only [mtailApp] at *
      rcases hpf : parseFields ftl with e | ⟨fields, ts⟩ <;> rw [hpf] at h <;>
        dsimp only at h
      · exact absurd h (by simp)
      · have hraw : RawLine.mk meas [] fields ts = raw := by simpa using h
        subst hraw
        simp only at hts hbare
        subst hts
        have hfts : ftl.Sublist s :=
          measurementProcess_tail_sublist s meas ftl (.inr hm)
        have hftnl : '\n' ∉ ftl := fun hm' => hnl (hfts.subset hm')
        have hpf' : parseFields (ftl ++ ['\n']) = .ok (fields, none) := by
          unfold parseFields at hpf ⊢
          rw [show (ftl ++ ['\n']).length + 1 = (ftl.length + 1) + 1 by simp]
          exact parseFieldsAux_append_nl (ftl.length + 1) (ftl.length + 1 + 1)
            ftl fields (by omega) hftnl hpf hbare
        rw [hpf']

/-- C3 (amended): appending a trailing newline preserves the parse result
when the line's tokenization ends in a bare (unquoted) field value and has
no timestamp: parsing `s + "\n"` then returns exactly the result of parsing
`s`.  When the line ends in a quoted string value the newline is rejected
with `SymbolsAfterClosedString`, and when a timestamp is present the
timestamp slice becomes `ts + "\n"` and fails to parse as an integer, so in
those cases parsing `s + "\n"` fails even though parsing `s` succeeds (see
the counterexample). -/
theorem C3_trailing_newline_amended (s : List Char) (raw : RawLine)
    (hnl : '\n' ∉ s) (h : rawLineParse s = .ok raw)
    (hts : raw.timestamp = none)
    (hbare : ∀ p ∈ raw.fields.getLast?, p.value.head? ≠ some '"') :
    lineFromStr (s ++ ['\n']) = lineFromStr s := by
  unfold lineFromStr
  rw [h, rawLineParse_append_nl s raw hnl h hts hbare]

/-- Witness for C3 on `m f=1i`: the newline-terminated spelling parses to
the same record. -/
theorem C3_trailing_newline_amended_witness :
    lineFromStr ("m f=1i".data ++ ['\n']) = lineFromStr "m f=1i".data :=
  C3_trailing_newline_amended "m f=1i".data
    ⟨"m".data, [], [⟨"f".data, "1i".data⟩], none⟩
    (by decide) (by decide) (by decide) (by decide)

/-- Counterexample for C3 as stated: `m f="x"` parses successfully, but
appending a single trailing newline makes parsing fail with
`SymbolsAfterClosedString` — the tokenizer only tolerates a trailing newline
after a bare field value, not after a closing double quote (nor inside a
timestamp). -/
theorem C3_trailing_newline_counterexample :
    lineFromStr "m f=\"x\"".data =
      .ok { measurement := ⟨"m".data⟩, tags := ⟨[]⟩,
            fields := ⟨[⟨⟨"f".data⟩, .string "x".data⟩]⟩, timestamp := none } ∧
    lineFromStr ("m f=\"x\"".data ++ ['\n']) =
      .error .symbolsAfterClosedString ∧
    lineFromStr "m f=1i 5".data =
      .ok { measurement := ⟨"m".data⟩, tags := ⟨[]⟩,
            fields := ⟨[⟨⟨"f".data⟩, .integer 1⟩]⟩, timestamp := some 5 } ∧
    lineFromStr ("m f=1i 5".data ++ ['\n']) = .error .timestampNotParsed :=
  ⟨by decide, by decide, by decide, by decide⟩

end InfluxLineSpec
